import Mathlib

/-!
Memory subsystem of the conversational agent

A shallow embedding of `cpp_agent/memory/short_term.{h,cpp}` and
`cpp_agent/memory/long_term.{h,cpp}`.

* A `std::string` is the list of its bytes (`Str`); a byte is a natural number
  below 256.  No operation of the model does arithmetic on bytes, only
  comparisons, so the statements proved for all lists hold for all byte strings.
* String literals of the source are UTF-8 encoded (`utf8`).
* A `std::map<std::string, V>` is an association list kept in increasing key
  order (`Map`); `operator<` on `std::string` is `strLt`.
* Member functions become functions on the fields they read and write.
* A call that can be left by an exception, that can call a library function
  outside its precondition, or whose recursion can outgrow the stack, returns
  an `Outcome`.
* The matcher of `std::regex` is the depth-first executor of the GNU library:
  it calls itself once more for every byte it consumes.  The number of bytes
  one match attempt can consume on the stack is a parameter of the model
  (`regex_depth`).
* Two concurrent calls of `mergeAndSaveLongTerm` are interleaved statement by
  statement; a call that finds a mutex held waits (`runSchedule`).
-/

namespace memory

/-! ## Strings -/

/-- A `std::string`: its bytes, in order. -/
abbrev Str := List Nat

/-- The bytes of a source-code string literal (the sources are UTF-8). -/
def utf8 (s : String) : Str :=
  s.data.flatMap (fun c => (String.utf8EncodeChar c).map UInt8.toNat)

/-- The text `operator<<` writes for an unsigned integer: its decimal digits. -/
def decimal (n : Nat) : Str := (Nat.toDigits 10 n).map Char.toNat

/-- The order `std::string::operator<` (and so `std::less<std::string>`)
computes: byte-wise lexicographic, a proper prefix being smaller. -/
def strLt : Str → Str → Bool
  | [], [] => false
  | [], _ :: _ => true
  | _ :: _, [] => false
  | a :: as, b :: bs => if a < b then true else if b < a then false else strLt as bs

/-! ## `std::map<std::string, V>` -/

/-- A `std::map<std::string, V>`: the key/value pairs in iteration order. -/
abbrev Map (V : Type) := List (Str × V)

/-- The representation invariant of `std::map`: keys strictly increasing. -/
def mapWF {V : Type} (m : Map V) : Prop :=
  List.Pairwise (fun a b => strLt a b = true) (m.map Prod.fst)

instance {V : Type} (m : Map V) : Decidable (mapWF m) := by
  unfold mapWF
  exact inferInstance

/-- The member `std::map::find`: the value stored under `k`, if any. -/
def mapFind {V : Type} : Map V → Str → Option V
  | [], _ => none
  | (k', v) :: rest, k => if k' = k then some v else mapFind rest k

/-- The assignment `m[k] = v`: replaces the value of an existing key, or inserts
the pair at its place in key order. -/
def mapAssign {V : Type} : Map V → Str → V → Map V
  | [], k, v => [(k, v)]
  | (k', v') :: rest, k, v =>
    if strLt k k' then (k, v) :: (k', v') :: rest
    else if strLt k' k then (k', v') :: mapAssign rest k v
    else (k', v) :: rest

/-- The map after evaluating `m[k]` for reading: an absent key is inserted with
the default value `d`. -/
def mapIndex {V : Type} (m : Map V) (k : Str) (d : V) : Map V :=
  match mapFind m k with
  | some _ => m
  | none => mapAssign m k d

/-! ## Short-term memory (`short_term.cpp`) -/

/-- The struct `ChatRound`; the time point is its tick count. -/
structure ChatRound where
  session_id : Str
  user_id : Str
  input : Str
  reply : Str
  timestamp : Nat
deriving DecidableEq, Repr

/-- The constant `ShortTermMemory::max_short_rounds`. -/
def max_short_rounds : Nat := 10

/-- The method `ShortTermMemory::saveShortTerm`, as a function on `store_`. -/
def saveShortTerm (store_ : Map (List ChatRound)) (round : ChatRound) :
    Map (List ChatRound) :=
  -- auto& rounds = store_[round.user_id]; rounds.push_back(round);
  let store1 := mapIndex store_ round.user_id []
  let rounds := (mapFind store1 round.user_id).getD [] ++ [round]
  -- if (rounds.size() > max_short_rounds) rounds.erase(begin, end - max_short_rounds);
  let rounds :=
    if rounds.length > max_short_rounds then
      rounds.drop (rounds.length - max_short_rounds)
    else rounds
  mapAssign store1 round.user_id rounds

/-- The loop of `getShortTermContext` from index `i` on: the text written for
the rounds `rounds[i], rounds[i+1], ...` (given here as the list `rs`). -/
def contextLoop : Nat → List ChatRound → Str
  | _, [] => []
  | i, r :: rs =>
    utf8 "第" ++ decimal (i + 1) ++ utf8 "轮用户输入：" ++ r.input ++ utf8 "；"
      ++ contextLoop (i + 1) rs

/-- The method `ShortTermMemory::getShortTermContext`. -/
def getShortTermContext (store_ : Map (List ChatRound)) (user_id : Str) : Str :=
  match mapFind store_ user_id with
  | none => utf8 "无历史对话"
  | some rounds =>
    if rounds.isEmpty then utf8 "无历史对话" else contextLoop 0 rounds

/-- The store after a sequence of `saveShortTerm` calls on the empty store. -/
def saveAll (rounds : List ChatRound) : Map (List ChatRound) :=
  rounds.foldl saveShortTerm []

/-- The turns of a call sequence that belong to user `u`, in arrival order. -/
def turnsOf (u : Str) (rounds : List ChatRound) : List ChatRound :=
  rounds.filter (fun r => r.user_id = u)

/-- The last `n` elements of a list. -/
def lastN {α : Type} (n : Nat) (l : List α) : List α := l.drop (l.length - n)

/-- The context as the specification words it: for `i = 1..m` the text
"第" i "轮用户输入：" input_i "；", concatenated. -/
def specContext (inputs : List Str) : Str :=
  (List.range inputs.length).flatMap (fun i =>
    utf8 "第" ++ decimal (i + 1) ++ utf8 "轮用户输入：" ++ inputs.getD i [] ++ utf8 "；")


/-! ## Long-term memory (`long_term.cpp`) -/

/-- The constant `LongTermMemory::max_long_keys`. -/
def max_long_keys : Nat := 50

/-- Where the write thread stands: at the test of `while (!should_stop_)`,
inside `queue_cv_.wait_for`, or returned from `asyncWriteLoop`. -/
inductive WorkerPc where
  | loopTop
  | waiting
  | done
deriving DecidableEq, Repr

/-- The fields of `LongTermMemory`, the write thread and the file system as
the module sees it.  `file` is the content of `persist_file` (`none`: it cannot
be opened for reading); `writable` tells whether opening it for writing
succeeds; `dir_ok` tells whether `fs::create_directories` on its directory
succeeds (otherwise that call throws `filesystem_error`); `regex_depth` is the
number of bytes one match attempt of `std::regex` can consume before the stack
of the calling thread is used up. -/
structure LongTermMemory where
  store_ : Map Str
  write_queue_ : List (Map Str)
  initialized_ : Bool
  should_stop_ : Bool
  worker : WorkerPc
  file : Option Str
  writable : Bool
  dir_ok : Bool
  regex_depth : Nat
deriving DecidableEq, Repr

/-- How a call ends: it returns a value, it is left by an exception, or it
runs into behaviour that C++ leaves undefined (a library call outside its
precondition, a recursion that outgrows the stack). -/
inductive Outcome (α : Type) where
  | returns (value : α)
  | throws
  | undefined
deriving DecidableEq, Repr

/-- The value a call returned, if it returned. -/
def Outcome.result {α : Type} : Outcome α → Option α
  | Outcome.returns a => some a
  | _ => none

/-- One of the two replacement loops of `splitKeywords`, for the three-byte
pattern `p0 p1 p2`: `find` from `pos`, `replace` the match by ",", `pos += 1`,
until `find` fails.  The argument is the text from `pos` on. -/
def replaceSep (p0 p1 p2 : Nat) : Str → Str
  | a :: b :: c :: rest =>
    if a = p0 ∧ b = p1 ∧ c = p2 then 0x2C :: replaceSep p0 p1 p2 rest
    else a :: replaceSep p0 p1 p2 (b :: c :: rest)
  | [a, b] => [a, b]
  | [a] => [a]
  | [] => []

/-- The loop `while (std::getline(iss, token, ','))`: `cur` is what the running
`getline` has read, the second argument what is left of the stream.  At the end
of the stream a `getline` that has read nothing fails and ends the loop. -/
def getlineLoop : Str → Str → List Str
  | cur, [] => if cur.isEmpty then [] else [cur]
  | cur, c :: rest =>
    if c = 0x2C then cur :: getlineLoop [] rest else getlineLoop (cur ++ [c]) rest

/-- Membership in the set `" \t"` given to `find_first_not_of` and
`find_last_not_of`. -/
def isBlank (c : Nat) : Bool := c = 0x20 || c = 0x09

/-- The two `erase` calls on a token: leading, then trailing, blanks go. -/
def trimToken (token : Str) : Str :=
  (token.dropWhile isBlank).rdropWhile isBlank

/-- The method `LongTermMemory::splitKeywords`. -/
def splitKeywords (str : Str) : List Str :=
  if str = [] ∨ str = utf8 "无" then []
  else
    let processed := replaceSep 0xE3 0x80 0x81 (replaceSep 0xEF 0xBC 0x8C str)
    ((getlineLoop [] processed).map trimToken).filter (fun token => !token.isEmpty)

/-- The loop that writes `merged_vec` to `oss`, from index `i` on. -/
def joinLoop : Nat → List Str → Str
  | _, [] => []
  | i, k :: ks => (if i > 0 then utf8 "，" else []) ++ k ++ joinLoop (i + 1) ks

/-- The loop `for (k : keys) merged_map[k] = true`. -/
def insertKeys (merged_map : Map Bool) (keys : List Str) : Map Bool :=
  keys.foldl (fun m k => mapAssign m k true) merged_map

/-- The vector `merged_vec` of `mergeAndSaveLongTerm` after the cap: the keys
of `merged_map` in iteration order, cut to `max_long_keys`. -/
def mergedVec (existing_keys new_keys : List Str) : List Str :=
  let merged_map := insertKeys (insertKeys [] existing_keys) new_keys
  let merged_vec := merged_map.map Prod.fst
  if merged_vec.length > max_long_keys then merged_vec.take max_long_keys else merged_vec

/-- The method `LongTermMemory::mergeAndSaveLongTerm`: the returned string and
the state after the call. -/
def mergeAndSaveLongTerm (st : LongTermMemory) (user_id new_keywords : Str) :
    Str × LongTermMemory :=
  if new_keywords = [] ∨ new_keywords = utf8 "无" then
    match mapFind st.store_ user_id with
    | none => (utf8 "无", st)
    | some v => if v = [] then (utf8 "无", st) else (v, st)
  else
    -- std::string existing_str = store_[user_id];
    let store1 := mapIndex st.store_ user_id []
    let existing_str := (mapFind store1 user_id).getD []
    let existing_keys := splitKeywords existing_str
    let new_keys := splitKeywords new_keywords
    let merged_vec := mergedVec existing_keys new_keys
    -- store_[user_id] = oss.str(); data_copy = store_;
    let data_copy := mapAssign store1 user_id (joinLoop 0 merged_vec)
    -- write_queue_.push(data_copy); return data_copy[user_id];
    ((mapFind data_copy user_id).getD [],
      { st with store_ := data_copy, write_queue_ := st.write_queue_ ++ [data_copy] })

/-- The method `LongTermMemory::getLongTerm`. -/
def getLongTerm (st : LongTermMemory) (user_id : Str) : Str :=
  match mapFind st.store_ user_id with
  | none => utf8 "无"
  | some v => if v = [] then utf8 "无" else v

/-- The loop of `saveToFile` over the pairs of `store_`. -/
def saveLoop : Bool → Map Str → Str
  | _, [] => []
  | first, (k, v) :: rest =>
    (if first then [] else utf8 ",\n") ++ utf8 "  \"" ++ k ++ utf8 "\": \"" ++ v ++ utf8 "\""
      ++ saveLoop false rest

/-- The text `saveToFile` writes for a table. -/
def fileText (store_ : Map Str) : Str :=
  utf8 "\x7b\n" ++ saveLoop true store_ ++ utf8 "\n\x7d\n"

/-- The method `LongTermMemory::saveToFile`: `-1` when the file cannot be
opened for writing, else the file is overwritten and `0` returned. -/
def saveToFile (st : LongTermMemory) : Int × LongTermMemory :=
  if st.writable then (0, { st with file := some (fileText st.store_) }) else (-1, st)

/-- The function `std::isspace` in the "C" locale. -/
def isspace (c : Nat) : Bool := c = 0x20 || (0x09 ≤ c && c ≤ 0x0D)

/-- A match of the regular expression `"([^"]+)"\s*:\s*"([^"]*)"` at the very
start of `s`: the two groups and the length of the match.  Every starred or
plussed class is followed by a byte outside the class, so only the longest run
can lead to a match. -/
def matchPairAt (s : Str) : Option (Str × Str × Nat) :=
  match s with
  | 0x22 :: s1 =>
    let key := s1.takeWhile (fun c => c ≠ 0x22)
    if key = [] then none
    else
      match s1.dropWhile (fun c => c ≠ 0x22) with
      | 0x22 :: s2 =>
        let ws1 := s2.takeWhile isspace
        match s2.dropWhile isspace with
        | 0x3A :: s3 =>
          let ws2 := s3.takeWhile isspace
          match s3.dropWhile isspace with
          | 0x22 :: s4 =>
            let value := s4.takeWhile (fun c => c ≠ 0x22)
            match s4.dropWhile (fun c => c ≠ 0x22) with
            | 0x22 :: _ =>
              some (key, value, key.length + ws1.length + ws2.length + value.length + 5)
            | _ => none
          | _ => none
        | _ => none
      | _ => none
  | _ => none

/-- The number of bytes the attempt to match the regular expression at the
very start of `s` consumes before it succeeds or gives up.  The executor of
`std::regex` searches the automaton depth first and calls itself again for
every byte it consumes (`_M_handle_match` advances and calls `_M_dfs`), so this
is the depth its recursion reaches; giving back bytes of a run never leads
further, as the byte behind a shortened run is of the class of the run. -/
def matchDepthAt (s : Str) : Nat :=
  match s with
  | 0x22 :: s1 =>
    let key := s1.takeWhile (fun c => c ≠ 0x22)
    match s1.dropWhile (fun c => c ≠ 0x22) with
    | 0x22 :: s2 =>
      if key = [] then 1
      else
        let ws1 := s2.takeWhile isspace
        match s2.dropWhile isspace with
        | 0x3A :: s3 =>
          let ws2 := s3.takeWhile isspace
          match s3.dropWhile isspace with
          | 0x22 :: s4 =>
            let value := s4.takeWhile (fun c => c ≠ 0x22)
            match s4.dropWhile (fun c => c ≠ 0x22) with
            | 0x22 :: _ => key.length + ws1.length + ws2.length + value.length + 5
            | _ => key.length + ws1.length + ws2.length + value.length + 4
          | _ => key.length + ws1.length + ws2.length + 3
        | _ => key.length + ws1.length + 2
    | _ => key.length + 1
  | _ => 0

/-- The loop over `std::sregex_iterator`: at each position the next match is
searched from there on; after a match the search resumes behind it (`skip`
counts the bytes of the last match still to pass).  An attempt that consumes
more than `depth` bytes outgrows the stack and the loop does not return. -/
def parsePairs (depth : Nat) : Nat → Str → Map Str → Outcome (Map Str)
  | _, [], store_ => Outcome.returns store_
  | skip + 1, _ :: rest, store_ => parsePairs depth skip rest store_
  | 0, c :: rest, store_ =>
    if depth < matchDepthAt (c :: rest) then Outcome.undefined
    else
      match matchPairAt (c :: rest) with
      | some (k, v, len) => parsePairs depth (len - 1) rest (mapAssign store_ k v)
      | none => parsePairs depth 0 rest store_

/-- The table `loadFromFile` builds from a non-empty file content, `depth`
being the number of bytes one match attempt can consume.  The calls
`content.front()` and `content.back()` require a non-empty string: on a content
that the removal of white space (and then of the opening brace) has left empty
their behaviour is undefined. -/
def parseContent (depth : Nat) (content : Str) : Outcome (Map Str) :=
  let content := content.filter (fun c => !isspace c)
  match content with
  | [] => Outcome.undefined
  | c :: rest =>
    -- if (content.front() == '{') content.erase(0, 1);
    let content := if c = 0x7B then rest else c :: rest
    match content.getLast? with
    | none => Outcome.undefined
    | some d =>
      -- if (content.back() == '}') content.pop_back();
      let content := if d = 0x7D then content.dropLast else content
      parsePairs depth 0 content []

/-- The method `LongTermMemory::loadFromFile`: on an unreadable file the
table is cleared and the result of `saveToFile` returned; on an empty file the
table is cleared; otherwise the content is parsed. -/
def loadFromFile (st : LongTermMemory) : Outcome (Int × LongTermMemory) :=
  match st.file with
  | none => Outcome.returns (saveToFile { st with store_ := [] })
  | some content =>
    if content = [] then Outcome.returns (0, { st with store_ := [] })
    else
      match parseContent st.regex_depth content with
      | Outcome.returns table => Outcome.returns (0, { st with store_ := table })
      | Outcome.throws => Outcome.throws
      | Outcome.undefined => Outcome.undefined

/-- The method `LongTermMemory::init`.  The call `fs::create_directories`
throws when the directory cannot be created; nothing in `init` catches it. -/
def init (st : LongTermMemory) : Outcome (Int × LongTermMemory) :=
  if st.initialized_ then Outcome.returns (0, st)
  else if st.dir_ok = false then Outcome.throws
  else
    match loadFromFile st with
    | Outcome.returns r =>
      let st1 := if r.1 ≠ 0 then { r.2 with store_ := [] } else r.2
      Outcome.returns
        (0, { st1 with should_stop_ := false, worker := WorkerPc.loopTop, initialized_ := true })
    | Outcome.throws => Outcome.throws
    | Outcome.undefined => Outcome.undefined

/-- One move of the write thread in `asyncWriteLoop`: from the loop test to
`wait_for` or to the final `saveToFile`; from `wait_for` (left on a snapshot,
on the stop flag or on timeout) through the rest of the loop body and back to
the loop test. -/
def asyncWriteLoopStep (st : LongTermMemory) : LongTermMemory :=
  match st.worker with
  | WorkerPc.done => st
  | WorkerPc.loopTop =>
    if st.should_stop_ then { (saveToFile st).2 with worker := WorkerPc.done }
    else { st with worker := WorkerPc.waiting }
  | WorkerPc.waiting =>
    match st.write_queue_ with
    | [] =>
      if st.should_stop_ then { (saveToFile st).2 with worker := WorkerPc.done }
      else { st with worker := WorkerPc.loopTop }
    | data_to_write :: queue =>
      let st1 := { st with write_queue_ := queue }
      if data_to_write.isEmpty then { st1 with worker := WorkerPc.loopTop }
      else
        -- store_ = data_to_write; saveToFile();
        { (saveToFile { st1 with store_ := data_to_write }).2 with worker := WorkerPc.loopTop }

/-- The call `write_thread_.join()`: the write thread runs until it has
returned; `fuel` bounds the number of its moves. -/
def joinWorker : Nat → LongTermMemory → LongTermMemory
  | 0, st => st
  | fuel + 1, st =>
    if st.worker = WorkerPc.done then st else joinWorker fuel (asyncWriteLoopStep st)

/-- The method `LongTermMemory::close`.  With the stop flag set the write
thread returns within two moves. -/
def close (st : LongTermMemory) : LongTermMemory :=
  if st.initialized_ then
    { joinWorker 2 { st with should_stop_ := true } with initialized_ := false }
  else st

/-- The state of a `LongTermMemory` whose `init` has run on an empty table:
nothing queued, the write thread waiting; a match attempt of the parser has
room for 32768 bytes. -/
def freshStore : LongTermMemory :=
  { store_ := [], write_queue_ := [], initialized_ := true, should_stop_ := false,
    worker := WorkerPc.waiting, file := some (fileText []), writable := true, dir_ok := true,
    regex_depth := 32768 }

/-- The state after a sequence of `mergeAndSaveLongTerm` calls. -/
def mergeAll (st : LongTermMemory) (calls : List (Str × Str)) : LongTermMemory :=
  calls.foldl (fun s c => (mergeAndSaveLongTerm s c.1 c.2).2) st

/-- The keywords stored for a user: the tokens of the stored string. -/
def storedKeys (st : LongTermMemory) (user_id : Str) : List Str :=
  splitKeywords ((mapFind st.store_ user_id).getD [])

/-! ## Notions used in the statements -/

/-- Strings joined by a separator put between neighbours. -/
def sepJoin (sep : Str) : List Str → Str
  | [] => []
  | [k] => k
  | k :: k2 :: ks => k ++ sep ++ sepJoin sep (k2 :: ks)

/-- A well-formed keyword token: not empty, no space or tab at either end, and
none of the separators ",", "，", "、" inside. -/
def cleanToken (t : Str) : Prop :=
  t ≠ [] ∧ isBlank (t.headD 0) = false ∧ isBlank (t.getLastD 0) = false ∧
    0x2C ∉ t ∧ ¬ utf8 "，" <:+: t ∧ ¬ utf8 "、" <:+: t

instance (t : Str) : Decidable (cleanToken t) := by
  unfold cleanToken
  exact inferInstance

/-- Trimming as the specification words it: surrounding white space (as
`std::isspace` knows it) is removed. -/
def trimWhitespace (t : Str) : Str :=
  (t.dropWhile isspace).rdropWhile isspace

/-- A keywords string with 51 distinct tokens. -/
def keywords51 : Str :=
  utf8 ("A,B,C,D,E,F,G,H,I,J,K,L,M,N,O,P,Q,R,S,T,U,V,W,X,Y,Z," ++
    "a,b,c,d,e,f,g,h,i,j,k,l,m,n,o,p,q,r,s,t,u,v,w,x,y")

/-- A value of 40000 bytes, each the letter "a". -/
def longValue : Str := List.replicate 40000 0x61

/-- A table the persistence format can carry: no key is empty, and no key or
value holds a double quote or a white-space byte. -/
def plainTable (t : Map Str) : Prop :=
  ∀ p ∈ t, p.1 ≠ [] ∧ (∀ c ∈ p.1, c ≠ 0x22 ∧ isspace c = false) ∧
    (∀ c ∈ p.2, c ≠ 0x22 ∧ isspace c = false)

instance (t : Map Str) : Decidable (plainTable t) := by
  unfold plainTable
  exact inferInstance

/-- The pieces of a text as the specification words the tokenization: the text
is cut at every ",", "，" and "、"; `cur` is the piece being read. -/
def specPieces : Str → Str → List Str
  | cur, a :: b :: c :: rest =>
    if a = 0x2C then cur :: specPieces [] (b :: c :: rest)
    else if [a, b, c] = utf8 "，" ∨ [a, b, c] = utf8 "、" then cur :: specPieces [] rest
    else specPieces (cur ++ [a]) (b :: c :: rest)
  | cur, [a, b] =>
    if a = 0x2C then cur :: specPieces [] [b] else specPieces (cur ++ [a]) [b]
  | cur, [a] => if a = 0x2C then [cur, []] else [cur ++ [a]]
  | cur, [] => [cur]

/-- Tokenization as the specification words it: cut at the separators, trim
each piece, discard the empty pieces, keep the order. -/
def specSplit (trim : Str → Str) (s : Str) : List Str :=
  ((specPieces [] s).map trim).filter (fun token => !token.isEmpty)

/-! ## Two concurrent calls of `mergeAndSaveLongTerm` -/

theorem strLt_irrefl (a : Str) : strLt a a = false := by
  induction a with
  | nil => rfl
  | cons x xs ih => simp [strLt, ih]

theorem strLt_eq_of_not_lt : ∀ (a b : Str), strLt a b = false → strLt b a = false → a = b
  | [], [], _, _ => rfl
  | [], _ :: _, h, _ => by simp [strLt] at h
  | _ :: _, [], _, h => by simp [strLt] at h
  | x :: xs, y :: ys, h1, h2 => by
    simp only [strLt] at h1 h2
    by_cases hxy : x < y
    · simp [hxy] at h1
    · by_cases hyx : y < x
      · simp [hyx] at h2
      · have hx : x = y := by omega
        simp [hxy, hyx] at h1 h2
        rw [hx, strLt_eq_of_not_lt xs ys h1 h2]

theorem strLt_asymm : ∀ (a b : Str), strLt a b = true → strLt b a = false
  | [], [], h => by simp [strLt] at h
  | [], _ :: _, _ => by simp [strLt]
  | _ :: _, [], h => by simp [strLt] at h
  | x :: xs, y :: ys, h => by
    simp only [strLt] at h ⊢
    by_cases hxy : x < y
    · have : ¬ y < x := by omega
      simp [hxy, this]
    · by_cases hyx : y < x
      · simp [hxy, hyx] at h
      · simp [hxy, hyx] at h ⊢
        exact strLt_asymm xs ys h

theorem strLt_trans : ∀ (a b c : Str), strLt a b = true → strLt b c = true → strLt a c = true
  | [], _, [], _, h2 => by cases ‹Str› <;> simp [strLt] at h2
  | [], _, _ :: _, _, _ => by simp [strLt]
  | _ :: _, [], _, h1, _ => by simp [strLt] at h1
  | _ :: _, _ :: _, [], _, h2 => by simp [strLt] at h2
  | x :: xs, y :: ys, z :: zs, h1, h2 => by
    simp only [strLt] at h1 h2 ⊢
    by_cases hxy : x < y
    · by_cases hyz : y < z
      · have : x < z := by omega
        simp [this]
      · by_cases hzy : z < y
        · simp [hyz, hzy] at h2
        · have : x < z := by omega
          simp [this]
    · by_cases hyx : y < x
      · simp [hxy, hyx] at h1
      · simp [hxy, hyx] at h1
        have hx : x = y := by omega
        subst hx
        by_cases hxz : x < z
        · simp [hxz]
        · by_cases hzx : z < x
          · simp [hxz, hzx] at h2
          · simp [hxz, hzx] at h2 ⊢
            exact strLt_trans xs ys zs h1 h2

theorem strLt_ne {a b : Str} (h : strLt a b = true) : a ≠ b := by
  intro hab
  rw [hab, strLt_irrefl] at h
  exact Bool.noConfusion h

/-! ## Lookup after assignment -/

theorem mapFind_mapAssign_self {V : Type} (m : Map V) (k : Str) (v : V) :
    mapFind (mapAssign m k v) k = some v := by
  induction m with
  | nil => simp [mapAssign, mapFind]
  | cons p rest ih =>
    obtain ⟨k', v'⟩ := p
    simp only [mapAssign]
    by_cases h1 : strLt k k' = true
    · simp [h1, mapFind]
    · by_cases h2 : strLt k' k = true
      · have hne : k' ≠ k := strLt_ne h2
        simp [h1, h2, mapFind, hne, ih]
      · have hk : k = k' := strLt_eq_of_not_lt k k' (by simpa using h1) (by simpa using h2)
        subst hk
        simp [h1, mapFind]

theorem mapFind_mapAssign_ne {V : Type} (m : Map V) (k k2 : Str) (v : V) (hne : k2 ≠ k) :
    mapFind (mapAssign m k v) k2 = mapFind m k2 := by
  induction m with
  | nil => simp [mapAssign, mapFind, Ne.symm hne]
  | cons p rest ih =>
    obtain ⟨k', v'⟩ := p
    simp only [mapAssign]
    by_cases h1 : strLt k k' = true
    · simp [h1, mapFind, Ne.symm hne]
    · by_cases h2 : strLt k' k = true
      · simp [h1, h2, mapFind, ih]
      · have hk : k = k' := strLt_eq_of_not_lt k k' (by simpa using h1) (by simpa using h2)
        subst hk
        simp [h1, mapFind, Ne.symm hne]

theorem mapFind_mapIndex_self {V : Type} (m : Map V) (k : Str) (d : V) :
    mapFind (mapIndex m k d) k = some ((mapFind m k).getD d) := by
  unfold mapIndex
  cases h : mapFind m k with
  | none => simp [mapFind_mapAssign_self]
  | some v => simp [h]

theorem mapFind_mapIndex_ne {V : Type} (m : Map V) (k k2 : Str) (d : V) (hne : k2 ≠ k) :
    mapFind (mapIndex m k d) k2 = mapFind m k2 := by
  unfold mapIndex
  cases h : mapFind m k with
  | none => simp [mapFind_mapAssign_ne _ _ _ _ hne]
  | some v => simp


/-! ## Short-term memory -/

theorem mapFind_saveShortTerm (s : Map (List ChatRound)) (r : ChatRound) (v : Str) :
    mapFind (saveShortTerm s r) v =
      if v = r.user_id then
        some (lastN max_short_rounds ((mapFind s v).getD [] ++ [r]))
      else mapFind s v := by
  unfold saveShortTerm
  by_cases hv : v = r.user_id
  · subst hv
    simp only [if_true, mapFind_mapAssign_self, mapFind_mapIndex_self, Option.getD_some]
    congr 1
    unfold lastN
    split
    · rfl
    · rename_i h
      have : ((mapFind s r.user_id).getD [] ++ [r]).length - max_short_rounds = 0 := by omega
      rw [this, List.drop_zero]
  · simp only [hv, if_false]
    rw [mapFind_mapAssign_ne _ _ _ _ hv, mapFind_mapIndex_ne _ _ _ _ hv]

theorem saveAll_snoc (rounds : List ChatRound) (r : ChatRound) :
    saveAll (rounds ++ [r]) = saveShortTerm (saveAll rounds) r := by
  simp [saveAll, List.foldl_append]

theorem lastN_lastN_snoc {α : Type} (n : Nat) (l : List α) (x : α) (hn : 0 < n) :
    lastN n (lastN n l ++ [x]) = lastN n (l ++ [x]) := by
  unfold lastN
  by_cases h : l.length ≤ n
  · have : l.length - n = 0 := by omega
    simp [this]
  · simp only [List.length_append, List.length_drop, List.length_singleton]
    have h1 : l.length - (l.length - n) + 1 - n = 1 := by omega
    have h2 : l.length + 1 - n = (l.length - n) + 1 := by omega
    rw [h1, h2]
    have h3 : (l.length - n) + 1 ≤ l.length := by omega
    rw [List.drop_append_of_le_length h3]
    rw [List.drop_append_of_le_length (by simp; omega)]
    rw [List.drop_drop]

theorem mapFind_saveAll (rounds : List ChatRound) (u : Str) :
    mapFind (saveAll rounds) u =
      if turnsOf u rounds = [] then none
      else some (lastN max_short_rounds (turnsOf u rounds)) := by
  induction rounds using List.reverseRecOn with
  | nil => simp [saveAll, turnsOf, mapFind]
  | append_singleton rs r ih =>
    rw [saveAll_snoc, mapFind_saveShortTerm, ih]
    by_cases hu : u = r.user_id
    · have ht : turnsOf u (rs ++ [r]) = turnsOf u rs ++ [r] := by
        simp [turnsOf, List.filter_append, hu]
      rw [ht]
      simp only [hu, if_true]
      have hne : turnsOf r.user_id rs ++ [r] ≠ [] := by simp
      rw [← hu] at hne ⊢
      simp only [hne, if_false]
      congr 1
      by_cases he : turnsOf u rs = []
      · simp [he]
      · simp only [he, if_false, Option.getD_some]
        exact lastN_lastN_snoc _ _ _ (by decide)
    · have ht : turnsOf u (rs ++ [r]) = turnsOf u rs := by
        have : ¬ r.user_id = u := fun h => hu h.symm
        simp [turnsOf, List.filter_append, this]
      rw [ht]
      simp [hu]

theorem contextLoop_eq (i : Nat) (rs : List ChatRound) :
    contextLoop i rs =
      (List.range rs.length).flatMap (fun j =>
        utf8 "第" ++ decimal (i + j + 1) ++ utf8 "轮用户输入：" ++
          (rs.map (fun r => r.input)).getD j [] ++ utf8 "；") := by
  induction rs generalizing i with
  | nil => simp [contextLoop]
  | cons r rs ih =>
    rw [contextLoop, ih (i + 1)]
    simp only [List.length_cons, List.range_succ_eq_map, List.flatMap_cons, List.map_cons,
      List.getD_cons_zero, Nat.add_zero, List.append_assoc]
    congr 5
    rw [List.flatMap_map]
    congr 1
    funext j
    simp only [Function.comp, List.getD_cons_succ, List.append_assoc]
    have : i + 1 + j + 1 = i + (j + 1) + 1 := by omega
    rw [this]

theorem contextLoop_zero (rs : List ChatRound) :
    contextLoop 0 rs = specContext (rs.map (fun r => r.input)) := by
  rw [contextLoop_eq]
  simp [specContext]

/-- C1: after any sequence of `saveShortTerm` calls (for any users), for a user
`u` with at least one turn `getShortTermContext u` is the concatenation, for
`i = 1..m`, of "第" i "轮用户输入：" input_i "；", where the inputs are those of
the last `m = min 10 (number of turns of u)` turns of `u`, oldest first. -/
theorem getShortTermContext_saveAll (rounds : List ChatRound) (u : Str)
    (h : turnsOf u rounds ≠ []) :
    getShortTermContext (saveAll rounds) u =
        specContext ((lastN 10 (turnsOf u rounds)).map (fun r => r.input)) ∧
      (lastN 10 (turnsOf u rounds)).length = min 10 (turnsOf u rounds).length := by
  constructor
  · unfold getShortTermContext
    rw [mapFind_saveAll]
    simp only [h, if_false]
    have hne : lastN max_short_rounds (turnsOf u rounds) ≠ [] := by
      intro h0
      have hl := congrArg List.length h0
      simp only [lastN, List.length_drop, List.length_nil, max_short_rounds] at hl
      have : 0 < (turnsOf u rounds).length := List.length_pos.mpr h
      omega
    have : (lastN max_short_rounds (turnsOf u rounds)).isEmpty = false := by
      cases hl : lastN max_short_rounds (turnsOf u rounds) with
      | nil => exact absurd hl hne
      | cons a l => rfl
    simp only [this]
    exact contextLoop_zero _
  · simp only [lastN, List.length_drop]
    omega

theorem getShortTermContext_saveAll_witness :
    turnsOf (utf8 "u")
        [⟨[], utf8 "u", utf8 "hi", [], 0⟩, ⟨[], utf8 "v", utf8 "x", [], 1⟩,
          ⟨[], utf8 "u", utf8 "yo", [], 2⟩] ≠ [] ∧
      getShortTermContext
          (saveAll [⟨[], utf8 "u", utf8 "hi", [], 0⟩, ⟨[], utf8 "v", utf8 "x", [], 1⟩,
            ⟨[], utf8 "u", utf8 "yo", [], 2⟩]) (utf8 "u") =
        utf8 "第1轮用户输入：hi；第2轮用户输入：yo；" :=
  ⟨by decide,
   (getShortTermContext_saveAll
      [⟨[], utf8 "u", utf8 "hi", [], 0⟩, ⟨[], utf8 "v", utf8 "x", [], 1⟩,
        ⟨[], utf8 "u", utf8 "yo", [], 2⟩] (utf8 "u") (by decide)).1.trans (by decide)⟩

/-- C2: starting from the empty store, after every `saveShortTerm` call every
user's turn sequence has length `min 10 (number of turns appended for the user)`,
so at most 10; and appending a turn to a full sequence (length 10, in any
store) removes exactly the oldest turn from the front and keeps the others in
order. -/
theorem saveShortTerm_bounded_fifo (rounds : List ChatRound) (u : Str)
    (s : Map (List ChatRound)) (r : ChatRound) (old : List ChatRound)
    (hfind : mapFind s r.user_id = some old) (hfull : old.length = 10) :
    ((mapFind (saveAll rounds) u).getD []).length = min 10 (turnsOf u rounds).length ∧
      ((mapFind (saveAll rounds) u).getD []).length ≤ 10 ∧
      mapFind (saveShortTerm s r) r.user_id = some (old.drop 1 ++ [r]) := by
  have h1 : ((mapFind (saveAll rounds) u).getD []).length
      = min 10 (turnsOf u rounds).length := by
    rw [mapFind_saveAll]
    by_cases he : turnsOf u rounds = []
    · simp [he]
    · simp only [he, if_false, Option.getD_some, lastN, List.length_drop, max_short_rounds]
      omega
  refine ⟨h1, by omega, ?_⟩
  rw [mapFind_saveShortTerm, hfind]
  simp only [if_true, Option.getD_some, lastN, List.length_append, List.length_singleton,
    hfull, max_short_rounds]
  rw [List.drop_append_of_le_length (by omega)]

theorem saveShortTerm_bounded_fifo_witness :
    ((mapFind (saveAll ((List.range 12).map (fun i => ⟨[], [117], [i], [], i⟩))) [117]).getD
        []).length = 10 ∧
      mapFind (saveShortTerm (saveAll ((List.range 10).map (fun i => ⟨[], [117], [i], [], i⟩)))
        ⟨[], [117], [10], [], 10⟩) [117] =
        some ((List.range 11).tail.map (fun i => ⟨[], [117], [i], [], i⟩)) :=
  have h := saveShortTerm_bounded_fifo
    ((List.range 12).map (fun i => ⟨[], [117], [i], [], i⟩)) [117]
    (saveAll ((List.range 10).map (fun i => ⟨[], [117], [i], [], i⟩)))
    ⟨[], [117], [10], [], 10⟩
    ((List.range 10).map (fun i => ⟨[], [117], [i], [], i⟩)) (by decide) (by decide)
  ⟨h.1.trans (by decide), h.2.2.trans (by decide)⟩

/-! ## Long-term memory: the no-op calls -/

theorem merge_noop_state (st : LongTermMemory) (u k : Str) (hk : k = [] ∨ k = utf8 "无") :
    (mergeAndSaveLongTerm st u k).2 = st := by
  unfold mergeAndSaveLongTerm
  simp only [hk, if_true]
  cases mapFind st.store_ u with
  | none => rfl
  | some v => by_cases hv : v = [] <;> simp [hv]

theorem merge_noop_value (st : LongTermMemory) (u k : Str) (hk : k = [] ∨ k = utf8 "无") :
    (mergeAndSaveLongTerm st u k).1 = getLongTerm st u := by
  unfold mergeAndSaveLongTerm getLongTerm
  simp only [hk, if_true]
  cases mapFind st.store_ u with
  | none => rfl
  | some v => by_cases hv : v = [] <;> simp [hv]

/-- C5: `mergeAndSaveLongTerm u "无"` and `mergeAndSaveLongTerm u ""` leave the
whole state (the table, so every `getLongTerm v`, and the write queue) exactly
as it was, and return what `getLongTerm u` returns. -/
theorem mergeAndSaveLongTerm_noop (st : LongTermMemory) (u : Str) :
    (mergeAndSaveLongTerm st u (utf8 "无")).2 = st ∧
      (mergeAndSaveLongTerm st u []).2 = st ∧
      (mergeAndSaveLongTerm st u (utf8 "无")).1 = getLongTerm st u ∧
      (mergeAndSaveLongTerm st u []).1 = getLongTerm st u ∧
      (∀ v, getLongTerm (mergeAndSaveLongTerm st u (utf8 "无")).2 v = getLongTerm st v) ∧
      (∀ v, getLongTerm (mergeAndSaveLongTerm st u []).2 v = getLongTerm st v) := by
  have h1 := merge_noop_state st u (utf8 "无") (Or.inr rfl)
  have h2 := merge_noop_state st u [] (Or.inl rfl)
  exact ⟨h1, h2, merge_noop_value st u (utf8 "无") (Or.inr rfl),
    merge_noop_value st u [] (Or.inl rfl), fun v => by rw [h1], fun v => by rw [h2]⟩

/-! ## The separator replacement loops -/

theorem prefix3_iff (p0 p1 p2 a b c : Nat) (rest : Str) :
    [p0, p1, p2] <+: a :: b :: c :: rest ↔ a = p0 ∧ b = p1 ∧ c = p2 := by
  simp only [List.cons_prefix_cons, List.nil_prefix, and_true]
  constructor
  · rintro ⟨h0, h1, h2⟩; exact ⟨h0.symm, h1.symm, h2.symm⟩
  · rintro ⟨h0, h1, h2⟩; exact ⟨h0.symm, h1.symm, h2.symm⟩

theorem replaceSep_cons_of_no_match (p0 p1 p2 a : Nat) (s : Str)
    (h : ¬ [p0, p1, p2] <+: a :: s) :
    replaceSep p0 p1 p2 (a :: s) = a :: replaceSep p0 p1 p2 s := by
  cases s with
  | nil => simp [replaceSep]
  | cons b s =>
    cases s with
    | nil => simp [replaceSep]
    | cons c rest =>
      rw [prefix3_iff] at h
      simp [replaceSep, h]

theorem replaceSep_match (p0 p1 p2 : Nat) (rest : Str) :
    replaceSep p0 p1 p2 (p0 :: p1 :: p2 :: rest) = 0x2C :: replaceSep p0 p1 p2 rest := by
  simp [replaceSep]

/-- Where no match starts inside `t`, the loop copies `t`. -/
theorem replaceSep_append (p0 p1 p2 : Nat) (t rest : Str)
    (h : ∀ l1 l2, t = l1 ++ l2 → l2 ≠ [] → ¬ [p0, p1, p2] <+: l2 ++ rest) :
    replaceSep p0 p1 p2 (t ++ rest) = t ++ replaceSep p0 p1 p2 rest := by
  induction t with
  | nil => rfl
  | cons a t ih =>
    have h0 := h [] (a :: t) rfl (by simp)
    rw [List.cons_append] at h0 ⊢
    rw [replaceSep_cons_of_no_match _ _ _ _ _ h0, ih]
    · rfl
    · intro l1 l2 ht hl2
      exact h (a :: l1) l2 (by rw [ht]; rfl) hl2

theorem infix_of_split {p t l1 l2 : Str} (ht : t = l1 ++ l2) (hp : p <+: l2) :
    p <:+: t := by
  obtain ⟨r, hr⟩ := hp
  exact ⟨l1, r, by rw [ht, ← hr, List.append_assoc]⟩

/-- A token without the pattern, followed by the pattern: one replacement. -/
theorem replaceSep_token_sep (p0 p1 p2 : Nat) (t rest : Str) (h01 : p0 ≠ p1) (h02 : p0 ≠ p2)
    (ht : ¬ [p0, p1, p2] <:+: t) :
    replaceSep p0 p1 p2 (t ++ p0 :: p1 :: p2 :: rest) =
      t ++ 0x2C :: replaceSep p0 p1 p2 rest := by
  rw [replaceSep_append, replaceSep_match]
  intro l1 l2 hsplit hl2 hpre
  match l2, hl2 with
  | [x], _ =>
    simp only [List.singleton_append, List.cons_prefix_cons] at hpre
    exact h01 hpre.2.1.symm
  | [x, y], _ =>
    simp only [List.cons_append, List.nil_append, List.cons_prefix_cons] at hpre
    exact h02 hpre.2.2.1.symm
  | x :: y :: z :: l3, _ =>
    apply ht
    apply infix_of_split hsplit
    simp only [List.cons_append, List.cons_prefix_cons, List.nil_prefix, and_true] at hpre ⊢
    exact hpre

/-- A token without the pattern, followed by a comma: nothing to replace in
the token. -/
theorem replaceSep_token_comma (p0 p1 p2 : Nat) (t rest : Str) (h0 : p0 ≠ 0x2C)
    (h1 : p1 ≠ 0x2C) (h2 : p2 ≠ 0x2C) (ht : ¬ [p0, p1, p2] <:+: t) :
    replaceSep p0 p1 p2 (t ++ 0x2C :: rest) = t ++ 0x2C :: replaceSep p0 p1 p2 rest := by
  rw [replaceSep_append]
  · rw [replaceSep_cons_of_no_match]
    simp only [List.cons_prefix_cons, not_and]
    intro h; exact absurd h h0
  · intro l1 l2 hsplit hl2 hpre
    match l2, hl2 with
    | [x], _ =>
      simp only [List.singleton_append, List.cons_prefix_cons] at hpre
      exact h1 hpre.2.1
    | [x, y], _ =>
      simp only [List.cons_append, List.nil_append, List.cons_prefix_cons] at hpre
      exact h2 hpre.2.2.1
    | x :: y :: z :: l3, _ =>
      apply ht
      apply infix_of_split hsplit
      simp only [List.cons_append, List.cons_prefix_cons, List.nil_prefix, and_true] at hpre ⊢
      exact hpre

/-- A text without the pattern is left as it is. -/
theorem replaceSep_id (p0 p1 p2 : Nat) (t : Str) (ht : ¬ [p0, p1, p2] <:+: t) :
    replaceSep p0 p1 p2 t = t := by
  have := replaceSep_append p0 p1 p2 t [] (by
    intro l1 l2 hsplit _ hpre
    rw [List.append_nil] at hpre
    exact ht (infix_of_split hsplit hpre))
  simpa [replaceSep] using this

theorem replaceSep_head (p0 p1 p2 : Nat) (s r : Str) (x : Nat)
    (h : replaceSep p0 p1 p2 s = x :: r) (hx : x ≠ 0x2C) :
    ∃ s2, s = x :: s2 ∧ r = replaceSep p0 p1 p2 s2 := by
  cases s with
  | nil => simp [replaceSep] at h
  | cons a s2 =>
    by_cases hp : [p0, p1, p2] <+: a :: s2
    · obtain ⟨rest, hrest⟩ := hp
      rw [← hrest] at h
      simp only [List.cons_append, List.nil_append, replaceSep_match, List.cons.injEq] at h
      exact absurd h.1.symm hx
    · rw [replaceSep_cons_of_no_match _ _ _ _ _ hp] at h
      simp only [List.cons.injEq] at h
      exact ⟨s2, by rw [h.1], h.2.symm⟩

/-- The output of a replacement loop holds no pattern `q` (free of commas)
unless the input held it at a place the loop did not replace. -/
theorem replaceSep_no_occurrence (p0 p1 p2 q0 q1 q2 : Nat) (hq0 : q0 ≠ 0x2C) (hq1 : q1 ≠ 0x2C)
    (hq2 : q2 ≠ 0x2C) :
    ∀ (n : Nat) (s : Str), s.length ≤ n →
      (∀ l1 l2, s = l1 ++ l2 → [q0, q1, q2] <+: l2 → [p0, p1, p2] <+: l2) →
      ¬ [q0, q1, q2] <:+: replaceSep p0 p1 p2 s := by
  intro n
  induction n with
  | zero =>
    intro s hs _
    have : s = [] := List.length_eq_zero.mp (by omega)
    subst this
    simp [replaceSep]
  | succ n ih =>
    intro s hs hocc
    cases s with
    | nil => simp [replaceSep]
    | cons a s2 =>
      by_cases hp : [p0, p1, p2] <+: a :: s2
      · obtain ⟨rest, hrest⟩ := hp
        rw [← hrest]
        simp only [List.cons_append, List.nil_append, replaceSep_match]
        rw [List.infix_cons_iff]
        rintro (hpre | hinf)
        · simp only [List.cons_prefix_cons] at hpre
          exact hq0 hpre.1
        · refine ih rest ?_ ?_ hinf
          · have := congrArg List.length hrest
            simp only [List.length_append, List.length_cons, List.length_nil] at this hs
            omega
          · intro l1 l2 hsplit hpre
            exact hocc ([p0, p1, p2] ++ l1) l2 (by rw [← hrest, hsplit, List.append_assoc]) hpre
      · rw [replaceSep_cons_of_no_match _ _ _ _ _ hp, List.infix_cons_iff]
        rintro (hpre | hinf)
        · apply hp
          apply hocc [] (a :: s2) rfl
          obtain ⟨t, ht⟩ := hpre
          simp only [List.cons_append, List.nil_append, List.cons.injEq] at ht
          obtain ⟨s3, hs3, hr3⟩ := replaceSep_head p0 p1 p2 s2 _ q1 ht.2.symm hq1
          obtain ⟨s4, hs4, _⟩ := replaceSep_head p0 p1 p2 s3 _ q2 hr3.symm hq2
          rw [hs3, hs4, ← ht.1]
          simp
        · refine ih s2 ?_ ?_ hinf
          · simp only [List.length_cons] at hs
            omega
          · intro l1 l2 hsplit hpre
            exact hocc (a :: l1) l2 (by rw [hsplit]; rfl) hpre

theorem replaceSep_self_free (p0 p1 p2 : Nat) (h0 : p0 ≠ 0x2C) (h1 : p1 ≠ 0x2C)
    (h2 : p2 ≠ 0x2C) (s : Str) : ¬ [p0, p1, p2] <:+: replaceSep p0 p1 p2 s :=
  replaceSep_no_occurrence p0 p1 p2 p0 p1 p2 h0 h1 h2 s.length s (Nat.le_refl _)
    (fun _ _ _ h => h)

theorem replaceSep_keeps_free (p0 p1 p2 q0 q1 q2 : Nat) (hq0 : q0 ≠ 0x2C) (hq1 : q1 ≠ 0x2C)
    (hq2 : q2 ≠ 0x2C) (s : Str) (hs : ¬ [q0, q1, q2] <:+: s) :
    ¬ [q0, q1, q2] <:+: replaceSep p0 p1 p2 s :=
  replaceSep_no_occurrence p0 p1 p2 q0 q1 q2 hq0 hq1 hq2 s.length s (Nat.le_refl _)
    (fun _ _ hsplit hpre => absurd (infix_of_split hsplit hpre) hs)

/-! ## Tokens -/

theorem utf8_comma_cn : utf8 "，" = [0xEF, 0xBC, 0x8C] := by decide

theorem utf8_comma_jp : utf8 "、" = [0xE3, 0x80, 0x81] := by decide

theorem utf8_sentinel : utf8 "无" = [0xE6, 0x97, 0xA0] := by decide

theorem getlineLoop_mem (s : Str) :
    ∀ (cur : Str), 0x2C ∉ cur → ∀ g ∈ getlineLoop cur s, g <:+: cur ++ s ∧ 0x2C ∉ g := by
  induction s with
  | nil =>
    intro cur hcur g hg
    simp only [getlineLoop] at hg
    by_cases he : cur.isEmpty = true
    · simp [he] at hg
    · simp only [he, Bool.false_eq_true, if_false, List.mem_singleton] at hg
      subst hg
      exact ⟨by simp, hcur⟩
  | cons c rest ih =>
    intro cur hcur g hg
    simp only [getlineLoop] at hg
    by_cases hc : c = 0x2C
    · simp only [hc, if_true, List.mem_cons] at hg
      rcases hg with hg | hg
      · subst hg
        exact ⟨(List.prefix_append _ _).isInfix, hcur⟩
      · obtain ⟨h1, h2⟩ := ih [] (by simp) g hg
        refine ⟨?_, h2⟩
        rw [List.nil_append] at h1
        exact h1.trans ((List.suffix_cons _ _).isInfix.trans (List.suffix_append _ _).isInfix)
    · simp only [hc, if_false] at hg
      have hcur2 : 0x2C ∉ cur ++ [c] := by
        simp only [List.mem_append, List.mem_singleton, not_or]
        exact ⟨hcur, fun h => hc h.symm⟩
      obtain ⟨h1, h2⟩ := ih (cur ++ [c]) hcur2 g hg
      refine ⟨?_, h2⟩
      rwa [List.append_assoc] at h1

theorem trimToken_inside (g : Str) : trimToken g <:+: g := by
  unfold trimToken
  exact (List.rdropWhile_prefix isBlank _).isInfix.trans (List.dropWhile_suffix _).isInfix

theorem trimToken_head (g : Str) : isBlank ((trimToken g).headD 0) = false := by
  unfold trimToken
  obtain ⟨r, hr⟩ := List.rdropWhile_prefix isBlank (List.dropWhile isBlank g)
  cases ht : List.rdropWhile isBlank (List.dropWhile isBlank g) with
  | nil => rfl
  | cons a t =>
    rw [ht] at hr
    have hne : List.dropWhile isBlank g ≠ [] := by rw [← hr]; simp
    have := List.head_dropWhile_not isBlank g hne
    simp only [← hr, List.cons_append, List.head_cons] at this
    simpa using this

theorem trimToken_last (g : Str) : isBlank ((trimToken g).getLastD 0) = false := by
  unfold trimToken
  cases ht : List.rdropWhile isBlank (List.dropWhile isBlank g) with
  | nil => rfl
  | cons a t =>
    have hne : List.rdropWhile isBlank (List.dropWhile isBlank g) ≠ [] := by rw [ht]; simp
    have := List.rdropWhile_last_not isBlank (List.dropWhile isBlank g) hne
    simp only [ht] at this
    simpa [List.getLastD] using this

/-- Every token `splitKeywords` returns is well formed. -/
theorem splitKeywords_clean (s : Str) : ∀ t ∈ splitKeywords s, cleanToken t := by
  intro t ht
  unfold splitKeywords at ht
  by_cases hs : s = [] ∨ s = utf8 "无"
  · simp [hs] at ht
  · simp only [hs, if_false, List.mem_filter, List.mem_map] at ht
    obtain ⟨⟨g, hg, hgt⟩, hne⟩ := ht
    obtain ⟨hinf, hcomma⟩ := getlineLoop_mem _ [] (by simp) g hg
    rw [List.nil_append] at hinf
    have htg : t <:+: g := hgt ▸ trimToken_inside g
    refine ⟨?_, ?_, ?_, ?_, ?_, ?_⟩
    · intro h0
      simp [h0] at hne
    · rw [← hgt]; exact trimToken_head g
    · rw [← hgt]; exact trimToken_last g
    · intro hmem
      exact hcomma (htg.subset hmem)
    · rw [utf8_comma_cn]
      intro h
      have h2 := (h.trans htg).trans hinf
      exact replaceSep_keeps_free 0xE3 0x80 0x81 0xEF 0xBC 0x8C (by decide) (by decide)
        (by decide) _ (replaceSep_self_free 0xEF 0xBC 0x8C (by decide) (by decide) (by decide) s)
        h2
    · rw [utf8_comma_jp]
      intro h
      have h2 := (h.trans htg).trans hinf
      exact replaceSep_self_free 0xE3 0x80 0x81 (by decide) (by decide) (by decide) _ h2

/-! ## Rendering and tokenising again -/

theorem trimToken_clean (t : Str) (h : cleanToken t) : trimToken t = t := by
  obtain ⟨hne, hhead, hlast, _⟩ := h
  unfold trimToken
  have h1 : List.dropWhile isBlank t = t := by
    rw [List.dropWhile_eq_self_iff]
    intro hl
    cases t with
    | nil => exact absurd rfl hne
    | cons a t => simpa using hhead
  rw [h1, List.rdropWhile_eq_self_iff]
  intro hl
  cases t with
  | nil => exact absurd rfl hne
  | cons a t => simpa [List.getLastD] using hlast

theorem joinLoop_succ (i : Nat) (T : List Str) :
    joinLoop (i + 1) T = T.flatMap (fun k => utf8 "，" ++ k) := by
  induction T generalizing i with
  | nil => rfl
  | cons k ks ih => simp [joinLoop, ih]

theorem sepJoin_cons (sep k : Str) (ks : List Str) :
    sepJoin sep (k :: ks) = k ++ ks.flatMap (fun x => sep ++ x) := by
  induction ks generalizing k with
  | nil => simp [sepJoin]
  | cons k2 ks ih => simp [sepJoin, ih]

theorem joinLoop_zero (T : List Str) : joinLoop 0 T = sepJoin (utf8 "，") T := by
  cases T with
  | nil => rfl
  | cons k ks => simp [joinLoop, joinLoop_succ, sepJoin_cons]

theorem replaceSep_sepJoin_self (p0 p1 p2 : Nat) (h01 : p0 ≠ p1) (h02 : p0 ≠ p2)
    (T : List Str) (hT : ∀ t ∈ T, ¬ [p0, p1, p2] <:+: t) :
    replaceSep p0 p1 p2 (sepJoin [p0, p1, p2] T) = sepJoin [0x2C] T := by
  induction T with
  | nil => rfl
  | cons k ks ih =>
    cases ks with
    | nil => simpa [sepJoin] using replaceSep_id p0 p1 p2 k (hT k (by simp))
    | cons k2 ks =>
      simp only [sepJoin, List.append_assoc, List.cons_append, List.nil_append]
      rw [replaceSep_token_sep p0 p1 p2 k _ h01 h02 (hT k (by simp))]
      rw [ih (fun t ht => hT t (List.mem_cons_of_mem _ ht))]

theorem replaceSep_sepJoin_comma (p0 p1 p2 : Nat) (h0 : p0 ≠ 0x2C) (h1 : p1 ≠ 0x2C)
    (h2 : p2 ≠ 0x2C) (T : List Str) (hT : ∀ t ∈ T, ¬ [p0, p1, p2] <:+: t) :
    replaceSep p0 p1 p2 (sepJoin [0x2C] T) = sepJoin [0x2C] T := by
  induction T with
  | nil => rfl
  | cons k ks ih =>
    cases ks with
    | nil => simpa [sepJoin] using replaceSep_id p0 p1 p2 k (hT k (by simp))
    | cons k2 ks =>
      simp only [sepJoin, List.append_assoc, List.cons_append, List.nil_append]
      rw [replaceSep_token_comma p0 p1 p2 k _ h0 h1 h2 (hT k (by simp))]
      rw [ih (fun t ht => hT t (List.mem_cons_of_mem _ ht))]

theorem getlineLoop_append (t : Str) (ht : 0x2C ∉ t) (cur rest : Str) :
    getlineLoop cur (t ++ rest) = getlineLoop (cur ++ t) rest := by
  induction t generalizing cur with
  | nil => simp
  | cons a t ih =>
    have ha : a ≠ 0x2C := fun h => ht (by simp [h])
    have ht2 : 0x2C ∉ t := fun h => ht (List.mem_cons_of_mem _ h)
    rw [List.cons_append, getlineLoop]
    simp only [ha, if_false]
    rw [ih ht2]
    simp

theorem getlineLoop_sepJoin (T : List Str) (hT : ∀ t ∈ T, t ≠ [] ∧ 0x2C ∉ t) :
    getlineLoop [] (sepJoin [0x2C] T) = T := by
  induction T with
  | nil => rfl
  | cons k ks ih =>
    obtain ⟨hk, hkc⟩ := hT k (by simp)
    cases ks with
    | nil =>
      have := getlineLoop_append k hkc [] []
      simp only [List.append_nil, List.nil_append] at this
      simp only [sepJoin, this, getlineLoop]
      cases k with
      | nil => exact absurd rfl hk
      | cons a k => simp
    | cons k2 ks =>
      simp only [sepJoin, List.append_assoc, List.cons_append, List.nil_append]
      rw [getlineLoop_append k hkc, List.nil_append]
      simp only [getlineLoop, if_true, List.cons.injEq, true_and]
      exact ih (fun t ht => hT t (List.mem_cons_of_mem _ ht))

theorem sepJoin_ne_nil (sep : Str) (k : Str) (ks : List Str) (hk : k ≠ []) :
    sepJoin sep (k :: ks) ≠ [] := by
  rw [sepJoin_cons]
  simp [hk]

/-- Rendering a list of well-formed tokens and tokenising the result gives the
list back, except for the one-element list holding the sentinel. -/
theorem splitKeywords_joinLoop (T : List Str) (hT : ∀ t ∈ T, cleanToken t)
    (hne : T ≠ [utf8 "无"]) : splitKeywords (joinLoop 0 T) = T := by
  rw [joinLoop_zero]
  cases T with
  | nil => simp [sepJoin, splitKeywords]
  | cons k ks =>
    have hk := hT k (by simp)
    have h1 : sepJoin (utf8 "，") (k :: ks) ≠ [] := sepJoin_ne_nil _ _ _ hk.1
    have h2 : sepJoin (utf8 "，") (k :: ks) ≠ utf8 "无" := by
      cases ks with
      | nil =>
        simp only [sepJoin]
        intro h
        exact hne (by rw [h])
      | cons k2 ks =>
        intro h
        have hl := congrArg List.length h
        rw [sepJoin_cons, utf8_sentinel, utf8_comma_cn] at hl
        simp only [List.flatMap_cons, List.length_append, List.length_cons, List.length_nil]
          at hl
        have : 0 < k.length := List.length_pos.mpr hk.1
        omega
    unfold splitKeywords
    simp only [h1, h2, or_self, if_false]
    rw [utf8_comma_cn,
      replaceSep_sepJoin_self 0xEF 0xBC 0x8C (by decide) (by decide) _
        (fun t ht => by have := (hT t ht).2.2.2.2.1; rwa [utf8_comma_cn] at this),
      replaceSep_sepJoin_comma 0xE3 0x80 0x81 (by decide) (by decide) (by decide) _
        (fun t ht => by have := (hT t ht).2.2.2.2.2; rwa [utf8_comma_jp] at this),
      getlineLoop_sepJoin _ (fun t ht => ⟨(hT t ht).1, (hT t ht).2.2.2.1⟩)]
    have hmap : List.map trimToken (k :: ks) = k :: ks := by
      conv_rhs => rw [← List.map_id (k :: ks)]
      exact List.map_congr_left (fun t ht => trimToken_clean t (hT t ht))
    rw [hmap, List.filter_eq_self]
    intro t ht
    have := (hT t ht).1
    cases t with
    | nil => exact absurd rfl this
    | cons a t => rfl

/-! ## Keys of a map -/

theorem keys_mapAssign {V : Type} (m : Map V) (k : Str) (v : V) (x : Str) :
    x ∈ (mapAssign m k v).map Prod.fst ↔ x = k ∨ x ∈ m.map Prod.fst := by
  induction m with
  | nil => simp [mapAssign]
  | cons p rest ih =>
    obtain ⟨k', v'⟩ := p
    simp only [mapAssign]
    by_cases h1 : strLt k k' = true
    · simp [h1]
    · by_cases h2 : strLt k' k = true
      · rw [if_neg h1, if_pos h2]
        simp only [List.map_cons, List.mem_cons, ih]
        tauto
      · have hk : k = k' := strLt_eq_of_not_lt k k' (by simpa using h1) (by simpa using h2)
        subst hk
        simp [h1]

theorem mapWF_mapAssign {V : Type} (m : Map V) (k : Str) (v : V) (h : mapWF m) :
    mapWF (mapAssign m k v) := by
  induction m with
  | nil => simp [mapAssign, mapWF]
  | cons p rest ih =>
    obtain ⟨k', v'⟩ := p
    unfold mapWF at h ⊢
    simp only [List.map_cons, List.pairwise_cons] at h
    simp only [mapAssign]
    by_cases h1 : strLt k k' = true
    · simp only [h1, if_true, List.map_cons, List.pairwise_cons, List.mem_cons]
      refine ⟨?_, h.1, h.2⟩
      rintro x (hx | hx)
      · rw [hx]; exact h1
      · exact strLt_trans _ _ _ h1 (h.1 x hx)
    · by_cases h2 : strLt k' k = true
      · rw [if_neg h1, if_pos h2]
        simp only [List.map_cons, List.pairwise_cons]
        refine ⟨?_, ih h.2⟩
        intro x hx
        rcases (keys_mapAssign rest k v x).mp hx with hx | hx
        · rw [hx]; exact h2
        · exact h.1 x hx
      · rw [if_neg h1, if_neg h2]
        simp only [List.map_cons, List.pairwise_cons]
        exact ⟨h.1, h.2⟩

theorem mapWF_nodup {V : Type} (m : Map V) (h : mapWF m) : (m.map Prod.fst).Nodup :=
  List.Pairwise.imp (fun hab => strLt_ne hab) h

theorem mapWF_insertKeys (keys : List Str) :
    ∀ (m : Map Bool), mapWF m → mapWF (insertKeys m keys) := by
  induction keys with
  | nil => intro m h; exact h
  | cons k ks ih =>
    intro m h
    exact ih _ (mapWF_mapAssign m k true h)

theorem keys_insertKeys (keys : List Str) :
    ∀ (m : Map Bool) (x : Str),
      x ∈ (insertKeys m keys).map Prod.fst ↔ x ∈ m.map Prod.fst ∨ x ∈ keys := by
  induction keys with
  | nil => intro m x; simp [insertKeys]
  | cons k ks ih =>
    intro m x
    have := ih (mapAssign m k true) x
    simp only [insertKeys, List.foldl_cons] at this ⊢
    rw [this, keys_mapAssign]
    simp only [List.mem_cons]
    tauto

/-! ## The merged vector -/

/-- The keys of `merged_map` before the cap. -/
theorem mergedKeys_spec (E N : List Str) :
    List.Pairwise (fun a b => strLt a b = true)
        ((insertKeys (insertKeys [] E) N).map Prod.fst) ∧
      ∀ x, x ∈ (insertKeys (insertKeys [] E) N).map Prod.fst ↔ x ∈ E ∨ x ∈ N := by
  constructor
  · exact mapWF_insertKeys N _ (mapWF_insertKeys E [] (by simp [mapWF]))
  · intro x
    rw [keys_insertKeys, keys_insertKeys]
    simp

theorem mergedKeys_length (E N : List Str) :
    ((insertKeys (insertKeys [] E) N).map Prod.fst).length = (E ++ N).toFinset.card := by
  obtain ⟨hs, hm⟩ := mergedKeys_spec E N
  have hnd : ((insertKeys (insertKeys [] E) N).map Prod.fst).Nodup :=
    List.Pairwise.imp (fun hab => strLt_ne hab) hs
  rw [← List.toFinset_card_of_nodup hnd]
  congr 1
  ext x
  simp [hm]

theorem mergedVec_sorted (E N : List Str) :
    List.Pairwise (fun a b => strLt a b = true) (mergedVec E N) := by
  unfold mergedVec
  obtain ⟨hs, _⟩ := mergedKeys_spec E N
  simp only
  split
  · exact hs.sublist (List.take_sublist _ _)
  · exact hs

theorem mergedVec_nodup (E N : List Str) : (mergedVec E N).Nodup :=
  List.Pairwise.imp (fun hab => strLt_ne hab) (mergedVec_sorted E N)

theorem mergedVec_length_le (E N : List Str) : (mergedVec E N).length ≤ 50 := by
  unfold mergedVec
  simp only [max_long_keys]
  split
  · simp only [List.length_take]; omega
  · omega

theorem mergedVec_length (E N : List Str) :
    (mergedVec E N).length = min 50 (E ++ N).toFinset.card := by
  have := mergedKeys_length E N
  unfold mergedVec
  simp only [max_long_keys]
  split
  · simp only [List.length_take]; omega
  · omega

theorem mergedVec_subset (E N : List Str) : ∀ x ∈ mergedVec E N, x ∈ E ∨ x ∈ N := by
  intro x hx
  unfold mergedVec at hx
  obtain ⟨_, hm⟩ := mergedKeys_spec E N
  simp only at hx
  split at hx
  · exact (hm x).mp (List.mem_of_mem_take hx)
  · exact (hm x).mp hx

/-- Below the cap the merged vector holds exactly the union. -/
theorem mergedVec_mem_of_le (E N : List Str) (h : (E ++ N).toFinset.card ≤ 50) (x : Str) :
    x ∈ mergedVec E N ↔ x ∈ E ∨ x ∈ N := by
  have hl := mergedKeys_length E N
  obtain ⟨_, hm⟩ := mergedKeys_spec E N
  unfold mergedVec
  simp only [max_long_keys]
  have : ¬ ((insertKeys (insertKeys [] E) N).map Prod.fst).length > 50 := by omega
  simp only [this, if_false]
  exact hm x

/-! ## One call of `mergeAndSaveLongTerm` -/

/-- What a call that is not a no-op returns and stores. -/
theorem mergeAndSaveLongTerm_eq (st : LongTermMemory) (u k : Str)
    (hk : ¬ (k = [] ∨ k = utf8 "无")) :
    mergeAndSaveLongTerm st u k =
      (joinLoop 0 (mergedVec (storedKeys st u) (splitKeywords k)),
        { st with
          store_ := mapAssign (mapIndex st.store_ u []) u
            (joinLoop 0 (mergedVec (storedKeys st u) (splitKeywords k))),
          write_queue_ := st.write_queue_ ++
            [mapAssign (mapIndex st.store_ u []) u
              (joinLoop 0 (mergedVec (storedKeys st u) (splitKeywords k)))] }) := by
  unfold mergeAndSaveLongTerm storedKeys
  simp only [hk, if_false, mapFind_mapAssign_self, mapFind_mapIndex_self, Option.getD_some]

theorem mapFind_merge_self (st : LongTermMemory) (u k : Str)
    (hk : ¬ (k = [] ∨ k = utf8 "无")) :
    mapFind (mergeAndSaveLongTerm st u k).2.store_ u =
      some (joinLoop 0 (mergedVec (storedKeys st u) (splitKeywords k))) := by
  rw [mergeAndSaveLongTerm_eq st u k hk]
  exact mapFind_mapAssign_self _ _ _

theorem mapFind_merge_ne (st : LongTermMemory) (u k v : Str) (hv : v ≠ u) :
    mapFind (mergeAndSaveLongTerm st u k).2.store_ v = mapFind st.store_ v := by
  by_cases hk : k = [] ∨ k = utf8 "无"
  · rw [merge_noop_state st u k hk]
  · rw [mergeAndSaveLongTerm_eq st u k hk]
    simp only
    rw [mapFind_mapAssign_ne _ _ _ _ hv, mapFind_mapIndex_ne _ _ _ _ hv]

theorem mergedVec_clean (s k : Str) :
    ∀ t ∈ mergedVec (splitKeywords s) (splitKeywords k), cleanToken t := by
  intro t ht
  rcases mergedVec_subset _ _ t ht with h | h
  · exact splitKeywords_clean s t h
  · exact splitKeywords_clean k t h

theorem storedKeys_merge_self (st : LongTermMemory) (u k : Str)
    (hk : ¬ (k = [] ∨ k = utf8 "无"))
    (hM : mergedVec (storedKeys st u) (splitKeywords k) ≠ [utf8 "无"]) :
    storedKeys (mergeAndSaveLongTerm st u k).2 u =
      mergedVec (storedKeys st u) (splitKeywords k) := by
  have h := mapFind_merge_self st u k hk
  unfold storedKeys at h ⊢
  rw [h, Option.getD_some]
  exact splitKeywords_joinLoop _ (mergedVec_clean _ _) hM

theorem storedKeys_merge_sentinel (st : LongTermMemory) (u k : Str)
    (hk : ¬ (k = [] ∨ k = utf8 "无"))
    (hM : mergedVec (storedKeys st u) (splitKeywords k) = [utf8 "无"]) :
    storedKeys (mergeAndSaveLongTerm st u k).2 u = [] := by
  have h := mapFind_merge_self st u k hk
  unfold storedKeys at h hM ⊢
  rw [h, Option.getD_some, hM]
  decide

theorem storedKeys_merge_ne (st : LongTermMemory) (u k v : Str) (hv : v ≠ u) :
    storedKeys (mergeAndSaveLongTerm st u k).2 v = storedKeys st v := by
  unfold storedKeys
  rw [mapFind_merge_ne st u k v hv]

theorem mergeAll_snoc (st : LongTermMemory) (calls : List (Str × Str)) (c : Str × Str) :
    mergeAll st (calls ++ [c]) = (mergeAndSaveLongTerm (mergeAll st calls) c.1 c.2).2 := by
  simp [mergeAll, List.foldl_append]

/-- After a call the keywords stored for any user are as before, or the merged
vector, or none at all. -/
theorem storedKeys_merge_cases (st : LongTermMemory) (u k v : Str) :
    storedKeys (mergeAndSaveLongTerm st u k).2 v = storedKeys st v ∨
      storedKeys (mergeAndSaveLongTerm st u k).2 v =
        mergedVec (storedKeys st u) (splitKeywords k) ∨
      storedKeys (mergeAndSaveLongTerm st u k).2 v = [] := by
  by_cases hv : v = u
  · subst hv
    by_cases hk : k = [] ∨ k = utf8 "无"
    · left
      rw [merge_noop_state st v k hk]
    · by_cases hM : mergedVec (storedKeys st v) (splitKeywords k) = [utf8 "无"]
      · right; right; exact storedKeys_merge_sentinel st v k hk hM
      · right; left; exact storedKeys_merge_self st v k hk hM
  · left; exact storedKeys_merge_ne st u k v hv

theorem storedKeys_trimmed (st : LongTermMemory) (u : Str) :
    (storedKeys st u).map trimToken = storedKeys st u := by
  conv_rhs => rw [← List.map_id (storedKeys st u)]
  exact List.map_congr_left (fun t ht => trimToken_clean t (splitKeywords_clean _ t ht))

/-- C3 (as amended): after any sequence of `mergeAndSaveLongTerm` calls on the
empty store, for every user the tokens of the stored string contain no
duplicate, equality being taken after trimming surrounding spaces and tabs
(which leaves every stored token as it is), and number at most 50. -/
theorem storedKeys_nodup_bounded (calls : List (Str × Str)) (u : Str) :
    ((storedKeys (mergeAll freshStore calls) u).map trimToken).Nodup ∧
      (storedKeys (mergeAll freshStore calls) u).Nodup ∧
      (storedKeys (mergeAll freshStore calls) u).length ≤ 50 := by
  rw [storedKeys_trimmed]
  refine ⟨?_, ?_⟩
  all_goals
    induction calls using List.reverseRecOn with
    | nil => simp [mergeAll, storedKeys, freshStore, mapFind, splitKeywords]
    | append_singleton cs c ih =>
      rw [mergeAll_snoc]
      rcases storedKeys_merge_cases (mergeAll freshStore cs) c.1 c.2 u with h | h | h
      · rw [h]; exact ih
      · rw [h]
        first
          | exact mergedVec_nodup _ _
          | exact ⟨mergedVec_nodup _ _, mergedVec_length_le _ _⟩
      · rw [h]; simp

/-- C3, counterexample: after the single call with keywords "a,\na" two stored
tokens are equal after trimming surrounding white space. -/
theorem storedKeys_whitespace_duplicate :
    ¬ ((storedKeys (mergeAll freshStore [(utf8 "u", utf8 "a,\na")]) (utf8 "u")).map
        trimWhitespace).Nodup := by
  decide

theorem splitKeywords_noop (k : Str) (hk : k = [] ∨ k = utf8 "无") : splitKeywords k = [] := by
  unfold splitKeywords
  simp [hk]

theorem mergedVec_ne_sentinel (E N : List Str) (hcap : (E ++ N).toFinset.card ≤ 50)
    (hs : (E ++ N).toFinset ≠ {utf8 "无"}) : mergedVec E N ≠ [utf8 "无"] := by
  intro hM
  apply hs
  ext x
  have := mergedVec_mem_of_le E N hcap x
  rw [hM] at this
  simp only [List.mem_singleton] at this
  simp only [List.mem_toFinset, List.mem_append, Finset.mem_singleton]
  exact this.symm

/-- C4 (as amended): if the union of the keywords stored for `u` and the tokens
of `k` has at most 50 elements and is not just the sentinel "无", every keyword
stored for `u` before `mergeAndSaveLongTerm u k` is still stored after it. -/
theorem mergeAndSaveLongTerm_keeps_keywords (st : LongTermMemory) (u k : Str)
    (hcap : (storedKeys st u ++ splitKeywords k).toFinset.card ≤ 50)
    (hs : (storedKeys st u ++ splitKeywords k).toFinset ≠ {utf8 "无"}) :
    ∀ t ∈ storedKeys st u, t ∈ storedKeys (mergeAndSaveLongTerm st u k).2 u := by
  intro t ht
  by_cases hk : k = [] ∨ k = utf8 "无"
  · rw [merge_noop_state st u k hk]; exact ht
  · rw [storedKeys_merge_self st u k hk (mergedVec_ne_sentinel _ _ hcap hs)]
    exact (mergedVec_mem_of_le _ _ hcap t).mpr (Or.inl ht)

theorem mergeAndSaveLongTerm_keeps_keywords_witness :
    utf8 "movies" ∈
      storedKeys
        (mergeAndSaveLongTerm (mergeAll freshStore [(utf8 "u1", utf8 "fishing, movies")])
          (utf8 "u1") (utf8 "chess")).2 (utf8 "u1") :=
  mergeAndSaveLongTerm_keeps_keywords
    (mergeAll freshStore [(utf8 "u1", utf8 "fishing, movies")]) (utf8 "u1") (utf8 "chess")
    (by decide) (by decide) (utf8 "movies") (by decide)

/-- C4, counterexample: on the table loaded from the file `{"u": "无,"}` the
keyword "无" is stored for "u"; after `mergeAndSaveLongTerm "u" ","` it is not,
although the union has one element. -/
theorem mergeAndSaveLongTerm_loses_sentinel_keyword :
    (init { freshStore with initialized_ := false,
                            file := some (utf8 "\x7b\"u\": \"无,\"\x7d") }).result.map
        (fun r => r.2.store_) = some [(utf8 "u", utf8 "无,")] ∧
      (storedKeys { freshStore with store_ := [(utf8 "u", utf8 "无,")] } (utf8 "u") ++
          splitKeywords (utf8 ",")).toFinset.card ≤ 50 ∧
      utf8 "无" ∈ storedKeys { freshStore with store_ := [(utf8 "u", utf8 "无,")] } (utf8 "u") ∧
      utf8 "无" ∉
        storedKeys
          (mergeAndSaveLongTerm { freshStore with store_ := [(utf8 "u", utf8 "无,")] }
            (utf8 "u") (utf8 ",")).2 (utf8 "u") := by
  decide

theorem mem_sepJoin_inside (sep : Str) (T : List Str) (t : Str) (ht : t ∈ T) :
    t <:+: sepJoin sep T := by
  induction T with
  | nil => simp at ht
  | cons k ks ih =>
    rw [sepJoin_cons]
    rcases List.mem_cons.mp ht with h | h
    · rw [h]; exact (List.prefix_append _ _).isInfix
    · cases ks with
      | nil => simp at h
      | cons k2 ks =>
        have h2 := ih h
        rw [sepJoin_cons] at h2
        simp only [List.flatMap_cons, List.append_assoc]
        exact h2.trans ((List.suffix_append _ _).isInfix.trans (List.suffix_append _ _).isInfix)

theorem joinLoop_ne_nil (T : List Str) (hT : ∀ t ∈ T, cleanToken t) (hne : T ≠ []) :
    joinLoop 0 T ≠ [] := by
  rw [joinLoop_zero]
  cases T with
  | nil => exact absurd rfl hne
  | cons k ks => exact sepJoin_ne_nil _ _ _ (hT k (by simp)).1

theorem getLongTerm_merge (st : LongTermMemory) (u k : Str)
    (hk : ¬ (k = [] ∨ k = utf8 "无"))
    (hne : mergedVec (storedKeys st u) (splitKeywords k) ≠ []) :
    getLongTerm (mergeAndSaveLongTerm st u k).2 u = (mergeAndSaveLongTerm st u k).1 := by
  unfold getLongTerm
  rw [mapFind_merge_self st u k hk]
  have hj := joinLoop_ne_nil _ (mergedVec_clean ((mapFind st.store_ u).getD []) k) hne
  unfold storedKeys
  simp only [hj, if_false]
  rw [mergeAndSaveLongTerm_eq st u k hk]
  rfl

/-- C6 (as amended): for a user with no keyword stored and a keywords string
`k` with at least one token and at most 50 distinct tokens,
`mergeAndSaveLongTerm u k` returns a string that contains every token of `k`,
and `getLongTerm u` right afterwards returns the same string. -/
theorem mergeAndSaveLongTerm_fresh (st : LongTermMemory) (u k : Str)
    (hnone : storedKeys st u = []) (htok : splitKeywords k ≠ [])
    (hcap : (splitKeywords k).toFinset.card ≤ 50) :
    (∀ t ∈ splitKeywords k, t <:+: (mergeAndSaveLongTerm st u k).1) ∧
      getLongTerm (mergeAndSaveLongTerm st u k).2 u = (mergeAndSaveLongTerm st u k).1 := by
  have hk : ¬ (k = [] ∨ k = utf8 "无") := fun h => htok (splitKeywords_noop k h)
  have hcap2 : (storedKeys st u ++ splitKeywords k).toFinset.card ≤ 50 := by
    rw [hnone]; simpa using hcap
  have hmem := mergedVec_mem_of_le (storedKeys st u) (splitKeywords k) hcap2
  constructor
  · intro t ht
    rw [mergeAndSaveLongTerm_eq st u k hk, joinLoop_zero]
    exact mem_sepJoin_inside _ _ t ((hmem t).mpr (Or.inr ht))
  · apply getLongTerm_merge st u k hk
    cases hN : splitKeywords k with
    | nil => exact absurd hN htok
    | cons t ts =>
      have : t ∈ mergedVec (storedKeys st u) (splitKeywords k) :=
        (hmem t).mpr (Or.inr (by rw [hN]; simp))
      rw [hN] at this
      exact List.ne_nil_of_mem this

theorem mergeAndSaveLongTerm_fresh_witness :
    (mergeAndSaveLongTerm freshStore (utf8 "u1") (utf8 "fishing, movies")).1 =
        utf8 "fishing，movies" ∧
      utf8 "fishing" <:+: (mergeAndSaveLongTerm freshStore (utf8 "u1")
        (utf8 "fishing, movies")).1 ∧
      utf8 "movies" <:+: (mergeAndSaveLongTerm freshStore (utf8 "u1")
        (utf8 "fishing, movies")).1 ∧
      getLongTerm (mergeAndSaveLongTerm freshStore (utf8 "u1") (utf8 "fishing, movies")).2
          (utf8 "u1") =
        (mergeAndSaveLongTerm freshStore (utf8 "u1") (utf8 "fishing, movies")).1 :=
  have h := mergeAndSaveLongTerm_fresh freshStore (utf8 "u1") (utf8 "fishing, movies")
    (by decide) (by decide) (by decide)
  ⟨by decide, h.1 (utf8 "fishing") (by decide), h.1 (utf8 "movies") (by decide), h.2⟩

set_option maxRecDepth 100000 in
/-- C6, counterexample: for a keywords string with 51 distinct tokens the
string returned on a fresh store does not contain the token "y". -/
theorem mergeAndSaveLongTerm_fresh_capped :
    storedKeys freshStore (utf8 "u1") = [] ∧
      utf8 "y" ∈ splitKeywords keywords51 ∧
      ¬ utf8 "y" <:+: (mergeAndSaveLongTerm freshStore (utf8 "u1") keywords51).1 := by
  decide

/-- C7 (as amended): if `k` has at least one token, every token of `k` is
already stored for `u`, and the keywords stored for `u` number at most 50 and
are not just the sentinel "无", then after `mergeAndSaveLongTerm u k` the set of
keywords stored for `u` (and its cardinality) is as before, and the tokens of
the returned string are exactly that set. -/
theorem mergeAndSaveLongTerm_resubmit (st : LongTermMemory) (u k : Str)
    (htok : splitKeywords k ≠ [])
    (hsub : ∀ t ∈ splitKeywords k, t ∈ storedKeys st u)
    (hcap : (storedKeys st u).toFinset.card ≤ 50)
    (hs : (storedKeys st u).toFinset ≠ {utf8 "无"}) :
    (storedKeys (mergeAndSaveLongTerm st u k).2 u).toFinset = (storedKeys st u).toFinset ∧
      (storedKeys (mergeAndSaveLongTerm st u k).2 u).toFinset.card =
        (storedKeys st u).toFinset.card ∧
      (splitKeywords (mergeAndSaveLongTerm st u k).1).toFinset =
        (storedKeys st u).toFinset := by
  have hk : ¬ (k = [] ∨ k = utf8 "无") := fun h => htok (splitKeywords_noop k h)
  have hunion : (storedKeys st u ++ splitKeywords k).toFinset = (storedKeys st u).toFinset := by
    ext x
    simp only [List.mem_toFinset, List.mem_append]
    constructor
    · rintro (h | h)
      · exact h
      · exact hsub x h
    · exact Or.inl
  have hcap2 : (storedKeys st u ++ splitKeywords k).toFinset.card ≤ 50 := by
    rw [hunion]; exact hcap
  have hM : mergedVec (storedKeys st u) (splitKeywords k) ≠ [utf8 "无"] :=
    mergedVec_ne_sentinel _ _ hcap2 (by rw [hunion]; exact hs)
  have hset : (mergedVec (storedKeys st u) (splitKeywords k)).toFinset =
      (storedKeys st u).toFinset := by
    rw [← hunion]
    ext x
    simp only [List.mem_toFinset, List.mem_append]
    exact mergedVec_mem_of_le _ _ hcap2 x
  have h1 : (storedKeys (mergeAndSaveLongTerm st u k).2 u).toFinset =
      (storedKeys st u).toFinset := by
    rw [storedKeys_merge_self st u k hk hM, hset]
  refine ⟨h1, by rw [h1], ?_⟩
  rw [mergeAndSaveLongTerm_eq st u k hk]
  simp only
  have hrt : splitKeywords (joinLoop 0 (mergedVec (storedKeys st u) (splitKeywords k))) =
      mergedVec (storedKeys st u) (splitKeywords k) :=
    splitKeywords_joinLoop _ (mergedVec_clean _ _) hM
  rw [hrt, hset]

theorem mergeAndSaveLongTerm_resubmit_witness :
    (mergeAndSaveLongTerm (mergeAll freshStore [(utf8 "u1", utf8 "fishing, movies")])
        (utf8 "u1") (utf8 "fishing")).1 = utf8 "fishing，movies" ∧
      (storedKeys
        (mergeAndSaveLongTerm (mergeAll freshStore [(utf8 "u1", utf8 "fishing, movies")])
          (utf8 "u1") (utf8 "fishing")).2 (utf8 "u1")).toFinset.card = 2 :=
  ⟨by decide,
   (mergeAndSaveLongTerm_resubmit
      (mergeAll freshStore [(utf8 "u1", utf8 "fishing, movies")]) (utf8 "u1")
      (utf8 "fishing") (by decide) (by decide) (by decide) (by decide)).2.1.trans
      (by decide)⟩

set_option maxRecDepth 100000 in
/-- C7, counterexample: (1) with "无," stored for "u", re-submitting "无," leaves
no keyword stored; (2) with the 51 keywords of `keywords51` stored for "u",
re-submitting "A" leaves 50. -/
theorem mergeAndSaveLongTerm_resubmit_changes :
    (splitKeywords (utf8 "无,") ≠ [] ∧
      (∀ t ∈ splitKeywords (utf8 "无,"),
        t ∈ storedKeys { freshStore with store_ := [(utf8 "u", utf8 "无,")] } (utf8 "u")) ∧
      storedKeys
          (mergeAndSaveLongTerm { freshStore with store_ := [(utf8 "u", utf8 "无,")] }
            (utf8 "u") (utf8 "无,")).2 (utf8 "u") = [] ∧
      storedKeys { freshStore with store_ := [(utf8 "u", utf8 "无,")] } (utf8 "u") =
        [utf8 "无"]) ∧
    (splitKeywords (utf8 "A") ≠ [] ∧
      (∀ t ∈ splitKeywords (utf8 "A"),
        t ∈ storedKeys { freshStore with store_ := [(utf8 "u", keywords51)] } (utf8 "u")) ∧
      (storedKeys { freshStore with store_ := [(utf8 "u", keywords51)] }
        (utf8 "u")).toFinset.card = 51 ∧
      (storedKeys
          (mergeAndSaveLongTerm { freshStore with store_ := [(utf8 "u", keywords51)] }
            (utf8 "u") (utf8 "A")).2 (utf8 "u")).toFinset.card = 50) := by
  decide

/-! ## Fifty-one single-token calls -/

theorem splitKeywords_single (t : Str) (hc : cleanToken t) (hs : t ≠ utf8 "无") :
    splitKeywords t = [t] := by
  have h := splitKeywords_joinLoop [t] (by simpa using hc) (by simpa using hs)
  simpa [joinLoop] using h

theorem mergeAll_cons (st : LongTermMemory) (c : Str × Str) (cs : List (Str × Str)) :
    mergeAll st (c :: cs) = mergeAll (mergeAndSaveLongTerm st c.1 c.2).2 cs := by
  simp [mergeAll]

theorem length_filter_ne_of_nodup (a : Str) (P : List Str) (h : P.Nodup) :
    P.length ≤ (P.filter (fun t => t ≠ a)).length + 1 := by
  induction P with
  | nil => simp
  | cons t P ih =>
    rw [List.nodup_cons] at h
    by_cases hta : t = a
    · subst hta
      have hself : P.filter (fun x => x ≠ t) = P := by
        rw [List.filter_eq_self]
        intro x hx
        have : x ≠ t := fun hxt => h.1 (hxt ▸ hx)
        simpa using this
      have hp : decide (t ≠ t) = false := by simp
      rw [List.filter_cons, hp, hself]
      simp
    · have := ih h.2
      have hp : decide (t ≠ a) = true := by simpa using hta
      rw [List.filter_cons, hp]
      simp only [if_true, List.length_cons]
      omega

theorem mergeAll_tokens_length (u : Str) :
    ∀ (P : List Str) (st : LongTermMemory), (storedKeys st u).Nodup →
      (storedKeys st u).length ≤ 50 →
      (∀ x ∈ storedKeys st u, x ≠ utf8 "无" ∧ x ∉ P) → P.Nodup →
      (∀ t ∈ P, cleanToken t) →
      (storedKeys (mergeAll st (P.map (fun t => (u, t)))) u).length =
        min 50 ((storedKeys st u).length + (P.filter (fun t => t ≠ utf8 "无")).length) := by
  intro P
  induction P with
  | nil =>
    intro st _ hle _ _ _
    simp only [List.map_nil, mergeAll, List.foldl_nil, List.filter_nil, List.length_nil]
    omega
  | cons t P ih =>
    intro st hnd hle hS hP hclean
    rw [List.nodup_cons] at hP
    rw [List.map_cons, mergeAll_cons]
    simp only
    by_cases hts : t = utf8 "无"
    · rw [merge_noop_state st u t (Or.inr hts)]
      rw [ih st hnd hle (fun x hx => ⟨(hS x hx).1, fun h => (hS x hx).2 (List.mem_cons_of_mem _ h)⟩)
        hP.2 (fun x hx => hclean x (List.mem_cons_of_mem _ hx))]
      have hp : decide (t ≠ utf8 "无") = false := by simpa using hts
      rw [List.filter_cons, hp]
      simp
    · have htc := hclean t (by simp)
      have hk : ¬ (t = [] ∨ t = utf8 "无") := fun h => h.elim htc.1 hts
      have hN : splitKeywords t = [t] := splitKeywords_single t htc hts
      have htS : t ∉ storedKeys st u := fun h => (hS t h).2 (by simp)
      have hmemM : ∀ x ∈ mergedVec (storedKeys st u) (splitKeywords t),
          x ≠ utf8 "无" ∧ x ∉ P := by
        intro x hx
        rcases mergedVec_subset _ _ x hx with h | h
        · exact ⟨(hS x h).1, fun hp => (hS x h).2 (List.mem_cons_of_mem _ hp)⟩
        · rw [hN, List.mem_singleton] at h
          rw [h]; exact ⟨hts, hP.1⟩
      have hM : mergedVec (storedKeys st u) (splitKeywords t) ≠ [utf8 "无"] := by
        intro h
        have := (hmemM (utf8 "无") (by rw [h]; simp)).1
        exact this rfl
      have hst := storedKeys_merge_self st u t hk hM
      have hcard : (storedKeys st u ++ splitKeywords t).toFinset.card =
          (storedKeys st u).length + 1 := by
        rw [hN, List.toFinset_card_of_nodup]
        · simp
        · rw [List.nodup_append]
          refine ⟨hnd, by simp, ?_⟩
          intro x hx hx2
          rw [List.mem_singleton] at hx2
          exact htS (hx2 ▸ hx)
      have hlen := mergedVec_length (storedKeys st u) (splitKeywords t)
      rw [hcard] at hlen
      rw [ih (mergeAndSaveLongTerm st u t).2 (by rw [hst]; exact mergedVec_nodup _ _)
        (by rw [hst]; exact mergedVec_length_le _ _) (by rw [hst]; exact hmemM) hP.2
        (fun x hx => hclean x (List.mem_cons_of_mem _ hx))]
      rw [hst, hlen]
      have hp : decide (t ≠ utf8 "无") = true := by simpa using hts
      rw [List.filter_cons, hp]
      simp only [if_true, List.length_cons]
      omega

/-- C8: submitting 51 pairwise distinct well-formed tokens, one per call, for a
user with no keyword stored leaves exactly 50 keywords stored for that user. -/
theorem mergeAll_51_tokens (st : LongTermMemory) (u : Str) (tokens : List Str)
    (hnone : storedKeys st u = []) (hlen : tokens.length = 51) (hnd : tokens.Nodup)
    (hclean : ∀ t ∈ tokens, cleanToken t) :
    (storedKeys (mergeAll st (tokens.map (fun t => (u, t)))) u).length = 50 := by
  rw [mergeAll_tokens_length u tokens st (by rw [hnone]; simp) (by rw [hnone]; simp)
    (by rw [hnone]; simp) hnd hclean]
  have := length_filter_ne_of_nodup (utf8 "无") tokens hnd
  rw [hnone]
  simp only [List.length_nil]
  omega

set_option maxRecDepth 100000 in
theorem mergeAll_51_tokens_witness :
    (splitKeywords keywords51).length = 51 ∧
      (storedKeys (mergeAll freshStore
        ((splitKeywords keywords51).map (fun t => (utf8 "u", t)))) (utf8 "u")).length = 50 :=
  ⟨by decide,
   mergeAll_51_tokens freshStore (utf8 "u") (splitKeywords keywords51) (by decide)
     (by decide) (by decide) (splitKeywords_clean keywords51)⟩

/-! ## The persisted file -/

theorem takeWhile_append_stop (p : Nat → Bool) (k : Str) (a : Nat) (r : Str)
    (hk : ∀ c ∈ k, p c = true) (ha : p a = false) :
    (k ++ a :: r).takeWhile p = k ∧ (k ++ a :: r).dropWhile p = a :: r := by
  induction k with
  | nil => simp [List.takeWhile, List.dropWhile, ha]
  | cons c k ih =>
    have hc := hk c (by simp)
    have := ih (fun x hx => hk x (List.mem_cons_of_mem _ hx))
    simp [List.takeWhile, List.dropWhile, hc, this]

theorem parsePairs_skip (d n : Nat) :
    ∀ (s : Str) (m : Map Str), parsePairs d n s m = parsePairs d 0 (s.drop n) m := by
  induction n with
  | zero => intro s m; simp
  | succ n ih =>
    intro s m
    cases s with
    | nil => simp [parsePairs]
    | cons c rest => simp [parsePairs, ih]

theorem matchPairAt_pair (k v R : Str) (hk : k ≠ []) (hkq : ∀ c ∈ k, c ≠ 0x22)
    (hvq : ∀ c ∈ v, c ≠ 0x22) :
    matchPairAt (0x22 :: (k ++ 0x22 :: 0x3A :: 0x22 :: (v ++ 0x22 :: R))) =
      some (k, v, k.length + v.length + 5) := by
  have h1 := takeWhile_append_stop (fun c => decide (c ≠ 0x22)) k 0x22
    (0x3A :: 0x22 :: (v ++ 0x22 :: R)) (fun c hc => by simpa using hkq c hc) (by simp)
  have h2 := takeWhile_append_stop (fun c => decide (c ≠ 0x22)) v 0x22 R
    (fun c hc => by simpa using hvq c hc) (by simp)
  unfold matchPairAt
  simp only [h1.1, h1.2, hk, if_false]
  have h3 : List.dropWhile isspace (0x3A :: 0x22 :: (v ++ 0x22 :: R)) =
      0x3A :: 0x22 :: (v ++ 0x22 :: R) := by
    simp [List.dropWhile, isspace]
  have h4 : List.takeWhile isspace (0x3A :: 0x22 :: (v ++ 0x22 :: R)) = [] := by
    simp [List.takeWhile, isspace]
  have h5 : List.dropWhile isspace (0x22 :: (v ++ 0x22 :: R)) = 0x22 :: (v ++ 0x22 :: R) := by
    simp [List.dropWhile, isspace]
  have h6 : List.takeWhile isspace (0x22 :: (v ++ 0x22 :: R)) = [] := by
    simp [List.takeWhile, isspace]
  simp only [h3, h4, h5, h6, h2.1, h2.2, List.length_nil, Nat.add_zero]

/-- The attempt that matches a pair consumes the pair: key, value and the
five bytes around them. -/
theorem matchDepthAt_pair (k v R : Str) (hk : k ≠ []) (hkq : ∀ c ∈ k, c ≠ 0x22)
    (hvq : ∀ c ∈ v, c ≠ 0x22) :
    matchDepthAt (0x22 :: (k ++ 0x22 :: 0x3A :: 0x22 :: (v ++ 0x22 :: R))) =
      k.length + v.length + 5 := by
  have h1 := takeWhile_append_stop (fun c => decide (c ≠ 0x22)) k 0x22
    (0x3A :: 0x22 :: (v ++ 0x22 :: R)) (fun c hc => by simpa using hkq c hc) (by simp)
  have h2 := takeWhile_append_stop (fun c => decide (c ≠ 0x22)) v 0x22 R
    (fun c hc => by simpa using hvq c hc) (by simp)
  unfold matchDepthAt
  simp only [h1.1, h1.2, hk, if_false]
  have h3 : List.dropWhile isspace (0x3A :: 0x22 :: (v ++ 0x22 :: R)) =
      0x3A :: 0x22 :: (v ++ 0x22 :: R) := by
    simp [List.dropWhile, isspace]
  have h4 : List.takeWhile isspace (0x3A :: 0x22 :: (v ++ 0x22 :: R)) = [] := by
    simp [List.takeWhile, isspace]
  have h5 : List.dropWhile isspace (0x22 :: (v ++ 0x22 :: R)) = 0x22 :: (v ++ 0x22 :: R) := by
    simp [List.dropWhile, isspace]
  have h6 : List.takeWhile isspace (0x22 :: (v ++ 0x22 :: R)) = [] := by
    simp [List.takeWhile, isspace]
  simp only [h3, h4, h5, h6, h2.1, h2.2, List.length_nil, Nat.add_zero]

/-- The text of `saveLoop` once its white space is removed. -/
theorem filter_saveLoop_cons (first : Bool) (k v : Str) (rest : Map Str)
    (hk : ∀ c ∈ k, isspace c = false) (hv : ∀ c ∈ v, isspace c = false) :
    (saveLoop first ((k, v) :: rest)).filter (fun c => !isspace c) =
      (if first then [] else [0x2C]) ++
        0x22 :: (k ++ 0x22 :: 0x3A :: 0x22 ::
          (v ++ 0x22 :: (saveLoop false rest).filter (fun c => !isspace c))) := by
  have hkf : k.filter (fun c => !isspace c) = k :=
    List.filter_eq_self.mpr (fun c hc => by simp [hk c hc])
  have hvf : v.filter (fun c => !isspace c) = v :=
    List.filter_eq_self.mpr (fun c hc => by simp [hv c hc])
  have e1 : (utf8 ",\n").filter (fun c => !isspace c) = [0x2C] := by decide
  have e2 : (utf8 "  \"").filter (fun c => !isspace c) = [0x22] := by decide
  have e3 : (utf8 "\": \"").filter (fun c => !isspace c) = [0x22, 0x3A, 0x22] := by decide
  have e4 : (utf8 "\"").filter (fun c => !isspace c) = [0x22] := by decide
  cases first <;>
    simp [saveLoop, List.filter_append, hkf, hvf, e1, e2, e3, e4]

/-- The loop over the text of `saveLoop`: it returns, with every pair
assigned, exactly when the stack has room for each pair; otherwise it does not
return. -/
theorem parsePairs_saveLoop (d : Nat) (t : Map Str) :
    ∀ (first : Bool) (m : Map Str), plainTable t →
      parsePairs d 0 ((saveLoop first t).filter (fun c => !isspace c)) m =
        if ∀ p ∈ t, p.1.length + p.2.length + 5 ≤ d then
          Outcome.returns (t.foldl (fun m p => mapAssign m p.1 p.2) m)
        else Outcome.undefined := by
  induction t with
  | nil => intro first m _; simp [saveLoop, parsePairs]
  | cons p rest ih =>
    intro first m hplain
    obtain ⟨k, v⟩ := p
    obtain ⟨hk, hks, hvs⟩ := hplain (k, v) (by simp)
    have hrest : plainTable rest := fun q hq => hplain q (List.mem_cons_of_mem _ hq)
    rw [filter_saveLoop_cons first k v rest (fun c hc => (hks c hc).2)
      (fun c hc => (hvs c hc).2)]
    have hmatch := matchPairAt_pair k v ((saveLoop false rest).filter (fun c => !isspace c)) hk
      (fun c hc => (hks c hc).1) (fun c hc => (hvs c hc).1)
    have hdepth := matchDepthAt_pair k v ((saveLoop false rest).filter (fun c => !isspace c)) hk
      (fun c hc => (hks c hc).1) (fun c hc => (hvs c hc).1)
    have hstep : parsePairs d 0
        (0x22 :: (k ++ 0x22 :: 0x3A :: 0x22 ::
          (v ++ 0x22 :: (saveLoop false rest).filter (fun c => !isspace c)))) m =
        if ∀ p ∈ (k, v) :: rest, p.1.length + p.2.length + 5 ≤ d then
          Outcome.returns (rest.foldl (fun m p => mapAssign m p.1 p.2) (mapAssign m k v))
        else Outcome.undefined := by
      rw [parsePairs, hdepth]
      by_cases hfit : k.length + v.length + 5 ≤ d
      · rw [if_neg (by omega), hmatch]
        simp only
        rw [parsePairs_skip]
        have hdrop : List.drop (k.length + v.length + 5 - 1)
            (k ++ 0x22 :: 0x3A :: 0x22 ::
              (v ++ 0x22 :: (saveLoop false rest).filter (fun c => !isspace c))) =
            (saveLoop false rest).filter (fun c => !isspace c) := by
          have e : k ++ 0x22 :: 0x3A :: 0x22 ::
              (v ++ 0x22 :: (saveLoop false rest).filter (fun c => !isspace c)) =
              (k ++ [0x22, 0x3A, 0x22] ++ v ++ [0x22]) ++
                (saveLoop false rest).filter (fun c => !isspace c) := by simp
          rw [e]
          apply List.drop_left'
          simp only [List.length_append, List.length_cons, List.length_nil]
          omega
        rw [hdrop, ih false _ hrest]
        by_cases hall : ∀ p ∈ rest, p.1.length + p.2.length + 5 ≤ d
        · rw [if_pos hall, if_pos]
          intro p hp
          rcases List.mem_cons.mp hp with h | h
          · rw [h]; exact hfit
          · exact hall p h
        · rw [if_neg hall, if_neg]
          intro h
          exact hall (fun p hp => h p (List.mem_cons_of_mem _ hp))
      · rw [if_pos (by omega), if_neg]
        intro h
        exact hfit (h (k, v) (by simp))
    cases first with
    | true => simpa using hstep
    | false =>
      simp only [Bool.false_eq_true, if_false, List.singleton_append]
      rw [parsePairs]
      · have hnone : matchPairAt (0x2C :: 0x22 :: (k ++ 0x22 :: 0x3A :: 0x22 ::
            (v ++ 0x22 :: (saveLoop false rest).filter (fun c => !isspace c)))) = none := by
          simp [matchPairAt]
        have hzero : matchDepthAt (0x2C :: 0x22 :: (k ++ 0x22 :: 0x3A :: 0x22 ::
            (v ++ 0x22 :: (saveLoop false rest).filter (fun c => !isspace c)))) = 0 := by
          simp [matchDepthAt]
        rw [hzero, if_neg (by omega), hnone]
        simpa using hstep

theorem mapAssign_last {V : Type} (m : Map V) (k : Str) (v : V)
    (h : ∀ x ∈ m.map Prod.fst, strLt x k = true) : mapAssign m k v = m ++ [(k, v)] := by
  induction m with
  | nil => rfl
  | cons p rest ih =>
    obtain ⟨k', v'⟩ := p
    have h1 : strLt k' k = true := h k' (by simp)
    have h2 : ¬ strLt k k' = true := by
      rw [strLt_asymm k' k h1]; simp
    simp only [mapAssign]
    rw [if_neg h2, if_pos h1, ih (fun x hx => h x (by simp at hx ⊢; exact Or.inr hx))]
    rfl

theorem foldl_mapAssign_sorted (t : Map Str) :
    ∀ (pre : Map Str), mapWF (pre ++ t) →
      t.foldl (fun m p => mapAssign m p.1 p.2) pre = pre ++ t := by
  induction t with
  | nil => intro pre _; simp
  | cons p rest ih =>
    intro pre hwf
    have hlast : mapAssign pre p.1 p.2 = pre ++ [p] := by
      apply mapAssign_last
      intro x hx
      unfold mapWF at hwf
      rw [List.map_append, List.pairwise_append] at hwf
      exact hwf.2.2 x hx p.1 (by simp)
    rw [List.foldl_cons, hlast, ih (pre ++ [p]) (by simpa using hwf)]
    simp

/-- What `loadFromFile` parses from the text `saveToFile` writes for a table
the format can carry: that table when the stack has room for each of its
pairs; otherwise the parse does not return. -/
theorem parseContent_fileText (d : Nat) (t : Map Str) (hwf : mapWF t) (hplain : plainTable t) :
    parseContent d (fileText t) =
      if ∀ p ∈ t, p.1.length + p.2.length + 5 ≤ d then Outcome.returns t
      else Outcome.undefined := by
  unfold parseContent fileText
  have e1 : (utf8 "\x7b\n").filter (fun c => !isspace c) = [0x7B] := by decide
  have e2 : (utf8 "\n\x7d\n").filter (fun c => !isspace c) = [0x7D] := by decide
  simp only [List.filter_append, e1, e2, List.cons_append, List.nil_append, if_true]
  have hlast : ((saveLoop true t).filter (fun c => !isspace c) ++ [0x7D]).getLast? =
      some 0x7D := by simp
  rw [hlast]
  simp only [if_true, List.dropLast_concat]
  rw [parsePairs_saveLoop d t true [] hplain,
    foldl_mapAssign_sorted t [] (by simpa using hwf)]
  rfl

theorem fileText_ne_nil (t : Map Str) : fileText t ≠ [] := by
  unfold fileText
  have : utf8 "\x7b\n" = [0x7B, 0x0A] := by decide
  rw [this]
  simp

/-- The load of the text `saveToFile` writes for a table the format can carry,
whatever table is in memory before: it returns 0 with that table when the
stack has room for each pair, and does not return otherwise. -/
theorem loadFromFile_fileText (st : LongTermMemory) (t : Map Str) (hwf : mapWF t)
    (hplain : plainTable t) (hfile : st.file = some (fileText t)) :
    loadFromFile st =
      if ∀ p ∈ t, p.1.length + p.2.length + 5 ≤ st.regex_depth then
        Outcome.returns (0, { st with store_ := t })
      else Outcome.undefined := by
  unfold loadFromFile
  rw [hfile]
  simp only [fileText_ne_nil, if_false]
  rw [parseContent_fileText st.regex_depth t hwf hplain]
  by_cases hfit : ∀ p ∈ t, p.1.length + p.2.length + 5 ≤ st.regex_depth
  · rw [if_pos hfit, if_pos hfit]
  · rw [if_neg hfit, if_neg hfit]

/-- C9 (as amended): let `st` hold a non-empty table whose keys are not empty,
whose keys and values hold no double quote and no white-space byte, and let
`saveToFile` write it.  An object `reader` that finds this file, whatever table
it has in memory, and whose stack has room for each pair of the table (key,
value and five bytes more), loads it with `loadFromFile`: the call returns 0,
the table of `reader` is then the table of `st`, and saving it again writes the
same text. -/
theorem load_save_roundtrip (st reader : LongTermMemory) (hw : st.writable = true)
    (hw2 : reader.writable = true) (_hne : st.store_ ≠ []) (hwf : mapWF st.store_)
    (hplain : plainTable st.store_)
    (hfit : ∀ p ∈ st.store_, p.1.length + p.2.length + 5 ≤ reader.regex_depth)
    (hfile : reader.file = (saveToFile st).2.file) :
    (saveToFile st).2.file = some (fileText st.store_) ∧
      loadFromFile reader = Outcome.returns (0, { reader with store_ := st.store_ }) ∧
      (saveToFile { reader with store_ := st.store_ }).2.file = (saveToFile st).2.file := by
  have hs : (saveToFile st).2.file = some (fileText st.store_) := by
    unfold saveToFile
    simp [hw]
  rw [hs] at hfile
  refine ⟨hs, ?_, ?_⟩
  · rw [loadFromFile_fileText reader st.store_ hwf hplain hfile, if_pos hfit]
  · rw [hs]
    unfold saveToFile
    simp [hw2]

theorem load_save_roundtrip_witness :
    (loadFromFile
        { freshStore with
          store_ := [(utf8 "u9", utf8 "chess")],
          file := (saveToFile (mergeAll freshStore
            [(utf8 "u1", utf8 "fishing, movies"), (utf8 "u0", utf8 "无,")])).2.file }
      ).result.map (fun r => (r.1, r.2.store_)) =
      some (0, [(utf8 "u0", utf8 "无"), (utf8 "u1", utf8 "fishing，movies")]) :=
  (congrArg (fun o => o.result.map (fun r => (r.1, r.2.store_)))
    (load_save_roundtrip
      (mergeAll freshStore [(utf8 "u1", utf8 "fishing, movies"), (utf8 "u0", utf8 "无,")])
      { freshStore with
        store_ := [(utf8 "u9", utf8 "chess")],
        file := (saveToFile (mergeAll freshStore
          [(utf8 "u1", utf8 "fishing, movies"), (utf8 "u0", utf8 "无,")])).2.file }
      (by decide) (by decide) (by decide) (by decide) (by decide) (by decide) rfl).2.1).trans
    (by decide)

/-- C9, counterexample: three non-empty tables the store reaches by one
`mergeAndSaveLongTerm` call and that do not come back from the file
`saveToFile` writes: a value with a space ("a b" is loaded as "ab"), a value
with a double quote, and an empty key (nothing is loaded). -/
theorem load_save_not_roundtrip :
    ((mergeAndSaveLongTerm freshStore (utf8 "u") (utf8 "a b")).2.store_ =
        [(utf8 "u", utf8 "a b")] ∧
      (loadFromFile (saveToFile
        (mergeAndSaveLongTerm freshStore (utf8 "u") (utf8 "a b")).2).2).result.map
          (fun r => r.2.store_) = some [(utf8 "u", utf8 "ab")]) ∧
    ((mergeAndSaveLongTerm freshStore (utf8 "u") (utf8 "a\"b")).2.store_ =
        [(utf8 "u", utf8 "a\"b")] ∧
      (loadFromFile (saveToFile
        (mergeAndSaveLongTerm freshStore (utf8 "u") (utf8 "a\"b")).2).2).result.map
          (fun r => r.2.store_) = some [(utf8 "u", utf8 "a")]) ∧
    ((mergeAndSaveLongTerm freshStore [] (utf8 "a")).2.store_ = [([], utf8 "a")] ∧
      (loadFromFile (saveToFile
        (mergeAndSaveLongTerm freshStore [] (utf8 "a")).2).2).result.map
          (fun r => r.2.store_) = some []) := by
  decide

/-! ## The write thread and `close` -/

theorem saveToFile_should_stop (st : LongTermMemory) :
    (saveToFile st).2.should_stop_ = st.should_stop_ := by
  unfold saveToFile
  split <;> rfl

/-- With the stop flag set the write thread has returned after two moves, so
`close` always returns. -/
theorem close_worker_done (st : LongTermMemory) (h : st.initialized_ = true) :
    (close st).worker = WorkerPc.done ∧ (close st).initialized_ = false := by
  unfold close
  simp only [h, if_true, and_true]
  cases hw : st.worker with
  | done => simp [joinWorker, hw]
  | loopTop => simp [joinWorker, asyncWriteLoopStep, hw]
  | waiting =>
    cases hq : st.write_queue_ with
    | nil => simp [joinWorker, asyncWriteLoopStep, hw, hq]
    | cons d q =>
      by_cases hd : d.isEmpty = true
      · simp [joinWorker, asyncWriteLoopStep, hw, hq, hd]
      · simp [joinWorker, asyncWriteLoopStep, hw, hq, hd, saveToFile_should_stop]

/-- C10, the code at the failing input: two calls for "u" leave the table
`u ↦ "a，b"` and two snapshots in the queue.  `close` then returns with the
later snapshot still queued, the file holding the earlier snapshot `u ↦ "a"`,
and the table itself set back to it.  If the write thread stands at the loop
test instead, both snapshots stay queued. -/
theorem close_leaves_queue_and_stale_file :
    (mergeAll freshStore [(utf8 "u", utf8 "a"), (utf8 "u", utf8 "b")]).store_ =
        [(utf8 "u", utf8 "a，b")] ∧
      (mergeAll freshStore [(utf8 "u", utf8 "a"), (utf8 "u", utf8 "b")]).write_queue_ =
        [[(utf8 "u", utf8 "a")], [(utf8 "u", utf8 "a，b")]] ∧
      (close (mergeAll freshStore [(utf8 "u", utf8 "a"), (utf8 "u", utf8 "b")])).worker =
        WorkerPc.done ∧
      (close (mergeAll freshStore [(utf8 "u", utf8 "a"), (utf8 "u", utf8 "b")])).write_queue_ =
        [[(utf8 "u", utf8 "a，b")]] ∧
      (close (mergeAll freshStore [(utf8 "u", utf8 "a"), (utf8 "u", utf8 "b")])).file =
        some (fileText [(utf8 "u", utf8 "a")]) ∧
      (close (mergeAll freshStore [(utf8 "u", utf8 "a"), (utf8 "u", utf8 "b")])).file ≠
        some (fileText [(utf8 "u", utf8 "a，b")]) ∧
      (close (mergeAll freshStore [(utf8 "u", utf8 "a"), (utf8 "u", utf8 "b")])).store_ =
        [(utf8 "u", utf8 "a")] ∧
      (close { mergeAll freshStore [(utf8 "u", utf8 "a"), (utf8 "u", utf8 "b")] with
        worker := WorkerPc.loopTop }).write_queue_.length = 2 := by
  decide

/-- The state `freshStore` is the one `init` reaches when no file exists, once
the write thread has entered its wait. -/
theorem freshStore_eq_init :
    (init
        { store_ := [], write_queue_ := [], initialized_ := false, should_stop_ := false,
          worker := WorkerPc.done, file := none, writable := true, dir_ok := true,
          regex_depth := 32768 }).result.map
        (fun r => asyncWriteLoopStep r.2) =
      some freshStore := by
  decide

/-! ## The sentinels -/

/-- C11: `getLongTerm u` returns the sentinel "无" when `u` has no entry or an
empty one, and the stored string otherwise; it is a total function and never
returns the empty string. -/
theorem getLongTerm_sentinel_or_stored (st : LongTermMemory) (u : Str) :
    (mapFind st.store_ u = none → getLongTerm st u = utf8 "无") ∧
      (mapFind st.store_ u = some [] → getLongTerm st u = utf8 "无") ∧
      (∀ v, mapFind st.store_ u = some v → v ≠ [] → getLongTerm st u = v) ∧
      getLongTerm st u ≠ [] := by
  unfold getLongTerm
  refine ⟨?_, ?_, ?_, ?_⟩
  · intro h; rw [h]
  · intro h; rw [h]; rfl
  · intro v h hv; rw [h]; simp [hv]
  · cases h : mapFind st.store_ u with
    | none => decide
    | some v =>
      by_cases hv : v = []
      · simp only [hv, if_true]; decide
      · simp [hv]

theorem getLongTerm_sentinel_or_stored_witness :
    getLongTerm freshStore (utf8 "u1") = utf8 "无" ∧
      getLongTerm { freshStore with store_ := [(utf8 "u1", [])] } (utf8 "u1") = utf8 "无" ∧
      getLongTerm (mergeAll freshStore [(utf8 "u1", utf8 "fishing, movies")]) (utf8 "u1") =
        utf8 "fishing，movies" :=
  ⟨(getLongTerm_sentinel_or_stored freshStore (utf8 "u1")).1 (by decide),
   (getLongTerm_sentinel_or_stored { freshStore with store_ := [(utf8 "u1", [])] }
      (utf8 "u1")).2.1 (by decide),
   (getLongTerm_sentinel_or_stored
      (mergeAll freshStore [(utf8 "u1", utf8 "fishing, movies")]) (utf8 "u1")).2.2.1
      (utf8 "fishing，movies") (by decide) (by decide)⟩

theorem contextLoop_head (i : Nat) (r : ChatRound) (rs : List ChatRound) :
    ∃ tail, contextLoop i (r :: rs) = 0xE7 :: tail := by
  have h : utf8 "第" = [0xE7, 0xAC, 0xAC] := by decide
  rw [contextLoop, h]
  exact ⟨_, rfl⟩

theorem getShortTermContext_of_rounds (store_ : Map (List ChatRound)) (u : Str)
    (r : ChatRound) (rs : List ChatRound) (h : mapFind store_ u = some (r :: rs)) :
    ∃ tail, getShortTermContext store_ u = 0xE7 :: tail := by
  unfold getShortTermContext
  rw [h]
  exact contextLoop_head 0 r rs

/-- C12: `getShortTermContext u` returns "无历史对话" when `u` has no turns
(no entry, or an empty sequence); for a user with at least one stored turn,
whatever the inputs, the rendered context differs from that sentinel and from
the empty string. -/
theorem getShortTermContext_sentinel (store_ : Map (List ChatRound)) (u : Str) :
    (mapFind store_ u = none → getShortTermContext store_ u = utf8 "无历史对话") ∧
      (mapFind store_ u = some [] → getShortTermContext store_ u = utf8 "无历史对话") ∧
      (∀ rounds, mapFind store_ u = some rounds → rounds ≠ [] →
        getShortTermContext store_ u ≠ utf8 "无历史对话" ∧ getShortTermContext store_ u ≠ []) := by
  refine ⟨?_, ?_, ?_⟩
  · intro h; unfold getShortTermContext; rw [h]
  · intro h; unfold getShortTermContext; rw [h]; rfl
  · intro rounds h hne
    cases rounds with
    | nil => exact absurd rfl hne
    | cons r rs =>
      obtain ⟨tail, ht⟩ := getShortTermContext_of_rounds store_ u r rs h
      rw [ht]
      have hs : utf8 "无历史对话" = 0xE6 :: (utf8 "无历史对话").tail := by decide
      constructor
      · rw [hs]
        intro heq
        have := (List.cons.inj heq).1
        exact absurd this (by decide)
      · simp

theorem getShortTermContext_sentinel_witness :
    getShortTermContext (saveAll []) (utf8 "u") = utf8 "无历史对话" ∧
      getShortTermContext (saveAll [⟨[], utf8 "u", utf8 "无历史对话", [], 0⟩]) (utf8 "u") ≠
        utf8 "无历史对话" ∧
      getShortTermContext (saveAll [⟨[], utf8 "u", [], [], 0⟩]) (utf8 "u") ≠ [] :=
  ⟨(getShortTermContext_sentinel (saveAll []) (utf8 "u")).1 (by decide),
   ((getShortTermContext_sentinel (saveAll [⟨[], utf8 "u", utf8 "无历史对话", [], 0⟩])
      (utf8 "u")).2.2 [⟨[], utf8 "u", utf8 "无历史对话", [], 0⟩] (by decide) (by decide)).1,
   ((getShortTermContext_sentinel (saveAll [⟨[], utf8 "u", [], [], 0⟩])
      (utf8 "u")).2.2 [⟨[], utf8 "u", [], [], 0⟩] (by decide) (by decide)).2⟩

/-- C17 (as amended): each store has its own sentinel for absence:
`getShortTermContext` returns "无历史对话" for a user with no turns and
`getLongTerm` returns "无" for a user with no preferences; the two strings are
different and neither is the empty string. -/
theorem sentinels_distinct (store_ : Map (List ChatRound)) (st : LongTermMemory) (u v : Str)
    (hu : mapFind store_ u = none ∨ mapFind store_ u = some [])
    (hv : mapFind st.store_ v = none ∨ mapFind st.store_ v = some []) :
    getShortTermContext store_ u = utf8 "无历史对话" ∧ getLongTerm st v = utf8 "无" ∧
      getShortTermContext store_ u ≠ getLongTerm st v ∧
      getShortTermContext store_ u ≠ [] ∧ getLongTerm st v ≠ [] := by
  have h1 : getShortTermContext store_ u = utf8 "无历史对话" := by
    unfold getShortTermContext
    rcases hu with h | h
    · rw [h]
    · rw [h]; rfl
  have h2 : getLongTerm st v = utf8 "无" := by
    unfold getLongTerm
    rcases hv with h | h
    · rw [h]
    · rw [h]; rfl
  rw [h1, h2]
  exact ⟨rfl, rfl, by decide, by decide, by decide⟩

theorem sentinels_distinct_witness :
    getShortTermContext (saveAll []) (utf8 "u") = utf8 "无历史对话" ∧
      getLongTerm freshStore (utf8 "u") = utf8 "无" :=
  have h := sentinels_distinct (saveAll []) freshStore (utf8 "u") (utf8 "u")
    (Or.inl (by decide)) (Or.inl (by decide))
  ⟨h.1, h.2.1⟩

/-- C17, counterexample: for a user unknown to both stores the two sentinels
returned are different strings. -/
theorem sentinels_not_shared :
    mapFind (saveAll []) (utf8 "u") = none ∧ mapFind freshStore.store_ (utf8 "u") = none ∧
      getShortTermContext (saveAll []) (utf8 "u") ≠ getLongTerm freshStore (utf8 "u") := by
  decide

/-! ## The write queue and the table -/

/-- C18: a call of `mergeAndSaveLongTerm` whose keywords string is neither
empty nor the sentinel appends exactly one element to the write queue; that
element is the whole in-memory table as it stands after the update; the value
returned is the entry of the updated user in that snapshot. -/
theorem mergeAndSaveLongTerm_enqueues_snapshot (st : LongTermMemory) (u k : Str)
    (hk1 : k ≠ []) (hk2 : k ≠ utf8 "无") :
    (mergeAndSaveLongTerm st u k).2.write_queue_ =
        st.write_queue_ ++ [(mergeAndSaveLongTerm st u k).2.store_] ∧
      (mergeAndSaveLongTerm st u k).2.write_queue_.length = st.write_queue_.length + 1 ∧
      mapFind (mergeAndSaveLongTerm st u k).2.store_ u = some (mergeAndSaveLongTerm st u k).1 := by
  have hk : ¬ (k = [] ∨ k = utf8 "无") := fun h => h.elim hk1 hk2
  rw [mergeAndSaveLongTerm_eq st u k hk]
  simp only [List.length_append, List.length_singleton, true_and]
  exact mapFind_mapAssign_self _ _ _

theorem mergeAndSaveLongTerm_enqueues_snapshot_witness :
    (mergeAndSaveLongTerm (mergeAll freshStore [(utf8 "u0", utf8 "chess")]) (utf8 "u1")
        (utf8 "fishing, movies")).2.write_queue_ =
      [[(utf8 "u0", utf8 "chess")],
        [(utf8 "u0", utf8 "chess"), (utf8 "u1", utf8 "fishing，movies")]] :=
  (mergeAndSaveLongTerm_enqueues_snapshot (mergeAll freshStore [(utf8 "u0", utf8 "chess")])
    (utf8 "u1") (utf8 "fishing, movies") (by decide) (by decide)).1.trans (by decide)

/-- C19, the code at the failing input: after the calls for "u" with "a" and
then "b" the table holds `u ↦ "a，b"`.  One iteration of the write thread
dequeues the first snapshot and assigns it to `store_`: afterwards
`getLongTerm "u"` returns "a" and the keyword "b" is no longer stored. -/
theorem flush_iteration_reverts_table :
    getLongTerm (mergeAll freshStore [(utf8 "u", utf8 "a"), (utf8 "u", utf8 "b")]) (utf8 "u") =
        utf8 "a，b" ∧
      (mergeAll freshStore [(utf8 "u", utf8 "a"), (utf8 "u", utf8 "b")]).worker =
        WorkerPc.waiting ∧
      (asyncWriteLoopStep
        (mergeAll freshStore [(utf8 "u", utf8 "a"), (utf8 "u", utf8 "b")])).store_ =
        [(utf8 "u", utf8 "a")] ∧
      getLongTerm
          (asyncWriteLoopStep
            (mergeAll freshStore [(utf8 "u", utf8 "a"), (utf8 "u", utf8 "b")])) (utf8 "u") =
        utf8 "a" ∧
      utf8 "b" ∉
        storedKeys
          (asyncWriteLoopStep
            (mergeAll freshStore [(utf8 "u", utf8 "a"), (utf8 "u", utf8 "b")])) (utf8 "u") := by
  decide

/-- C14 (as amended): for a keywords string `k` that is neither empty nor the
sentinel, if the union of the tokens stored for `u` and the tokens of `k` has
at most 50 elements and is not just the sentinel "无", then after
`mergeAndSaveLongTerm u k` the set of tokens stored for `u` is exactly that
union. -/
theorem mergeAndSaveLongTerm_union (st : LongTermMemory) (u k : Str)
    (hk1 : k ≠ []) (hk2 : k ≠ utf8 "无")
    (hcap : (storedKeys st u ++ splitKeywords k).toFinset.card ≤ 50)
    (hs : (storedKeys st u ++ splitKeywords k).toFinset ≠ {utf8 "无"}) :
    ∀ t, t ∈ storedKeys (mergeAndSaveLongTerm st u k).2 u ↔
      t ∈ storedKeys st u ∨ t ∈ splitKeywords k := by
  intro t
  have hk : ¬ (k = [] ∨ k = utf8 "无") := fun h => h.elim hk1 hk2
  rw [storedKeys_merge_self st u k hk (mergedVec_ne_sentinel _ _ hcap hs)]
  exact mergedVec_mem_of_le _ _ hcap t

theorem mergeAndSaveLongTerm_union_witness :
    utf8 "chess" ∈
        storedKeys
          (mergeAndSaveLongTerm (mergeAll freshStore [(utf8 "u1", utf8 "fishing, movies")])
            (utf8 "u1") (utf8 "chess、fishing")).2 (utf8 "u1") ∧
      utf8 "movies" ∈
        storedKeys
          (mergeAndSaveLongTerm (mergeAll freshStore [(utf8 "u1", utf8 "fishing, movies")])
            (utf8 "u1") (utf8 "chess、fishing")).2 (utf8 "u1") :=
  have h := mergeAndSaveLongTerm_union
    (mergeAll freshStore [(utf8 "u1", utf8 "fishing, movies")]) (utf8 "u1")
    (utf8 "chess、fishing") (by decide) (by decide) (by decide) (by decide)
  ⟨(h (utf8 "chess")).mpr (Or.inr (by decide)), (h (utf8 "movies")).mpr (Or.inl (by decide))⟩

/-- C14, counterexample: on the fresh store the keywords string "无," is
neither empty nor the sentinel and the union is the one token "无", but after
the call no token is stored for "u". -/
theorem mergeAndSaveLongTerm_union_sentinel :
    utf8 "无," ≠ [] ∧ utf8 "无," ≠ utf8 "无" ∧
      (storedKeys freshStore (utf8 "u") ++ splitKeywords (utf8 "无,")).toFinset.card ≤ 50 ∧
      utf8 "无" ∈ splitKeywords (utf8 "无,") ∧
      storedKeys (mergeAndSaveLongTerm freshStore (utf8 "u") (utf8 "无,")).2 (utf8 "u") = [] := by
  decide

/-! ## Tokenization against its specification -/

theorem specPieces_comma (cur s : Str) :
    specPieces cur (0x2C :: s) = cur :: specPieces [] s := by
  cases s with
  | nil => simp [specPieces]
  | cons b s =>
    cases s with
    | nil => simp [specPieces]
    | cons c rest => simp [specPieces]

theorem specPieces_other (cur : Str) (a : Nat) (s : Str) (ha : a ≠ 0x2C)
    (h1 : ¬ [0xEF, 0xBC, 0x8C] <+: a :: s) (h2 : ¬ [0xE3, 0x80, 0x81] <+: a :: s) :
    specPieces cur (a :: s) = specPieces (cur ++ [a]) s := by
  cases s with
  | nil => simp [specPieces, ha]
  | cons b s =>
    cases s with
    | nil => simp [specPieces, ha]
    | cons c rest =>
      rw [prefix3_iff] at h1 h2
      have e1 : ¬ [a, b, c] = utf8 "，" := by
        rw [utf8_comma_cn]
        simpa using h1
      have e2 : ¬ [a, b, c] = utf8 "、" := by
        rw [utf8_comma_jp]
        simpa using h2
      simp [specPieces, ha, e1, e2]

theorem specPieces_cn (cur rest : Str) :
    specPieces cur (0xEF :: 0xBC :: 0x8C :: rest) = cur :: specPieces [] rest := by
  have e : [0xEF, 0xBC, 0x8C] = utf8 "，" := utf8_comma_cn.symm
  simp [specPieces, e]

theorem specPieces_jp (cur rest : Str) :
    specPieces cur (0xE3 :: 0x80 :: 0x81 :: rest) = cur :: specPieces [] rest := by
  have e : [0xE3, 0x80, 0x81] = utf8 "、" := utf8_comma_jp.symm
  simp [specPieces, e]

theorem replaceBoth_cn (rest : Str) :
    replaceSep 0xE3 0x80 0x81 (replaceSep 0xEF 0xBC 0x8C (0xEF :: 0xBC :: 0x8C :: rest)) =
      0x2C :: replaceSep 0xE3 0x80 0x81 (replaceSep 0xEF 0xBC 0x8C rest) := by
  rw [replaceSep_match, replaceSep_cons_of_no_match]
  simp

theorem replaceBoth_jp (rest : Str) :
    replaceSep 0xE3 0x80 0x81 (replaceSep 0xEF 0xBC 0x8C (0xE3 :: 0x80 :: 0x81 :: rest)) =
      0x2C :: replaceSep 0xE3 0x80 0x81 (replaceSep 0xEF 0xBC 0x8C rest) := by
  rw [replaceSep_cons_of_no_match _ _ _ 0xE3 _ (by simp),
    replaceSep_cons_of_no_match _ _ _ 0x80 _ (by simp),
    replaceSep_cons_of_no_match _ _ _ 0x81 _ (by simp), replaceSep_match]

theorem replaceBoth_other (a : Nat) (s : Str) (h1 : ¬ [0xEF, 0xBC, 0x8C] <+: a :: s)
    (h2 : ¬ [0xE3, 0x80, 0x81] <+: a :: s) :
    replaceSep 0xE3 0x80 0x81 (replaceSep 0xEF 0xBC 0x8C (a :: s)) =
      a :: replaceSep 0xE3 0x80 0x81 (replaceSep 0xEF 0xBC 0x8C s) := by
  rw [replaceSep_cons_of_no_match _ _ _ _ _ h1, replaceSep_cons_of_no_match]
  intro hpre
  apply h2
  obtain ⟨t, ht⟩ := hpre
  simp only [List.cons_append, List.nil_append, List.cons.injEq] at ht
  obtain ⟨s3, hs3, hr3⟩ := replaceSep_head 0xEF 0xBC 0x8C s _ 0x80 ht.2.symm (by decide)
  obtain ⟨s4, hs4, _⟩ := replaceSep_head 0xEF 0xBC 0x8C s3 _ 0x81 hr3.symm (by decide)
  rw [hs3, hs4, ← ht.1]
  simp

/-- The tokens kept from the pieces: trimmed, the empty ones dropped. -/
theorem keptTokens_cons (cur : Str) (l1 l2 : List Str)
    (h : (l1.map trimToken).filter (fun token => !token.isEmpty) =
      (l2.map trimToken).filter (fun token => !token.isEmpty)) :
    ((cur :: l1).map trimToken).filter (fun token => !token.isEmpty) =
      ((cur :: l2).map trimToken).filter (fun token => !token.isEmpty) := by
  simp only [List.map_cons, List.filter_cons, h]

theorem getlineLoop_specPieces :
    ∀ (n : Nat) (s cur : Str), s.length ≤ n →
      ((getlineLoop cur
          (replaceSep 0xE3 0x80 0x81 (replaceSep 0xEF 0xBC 0x8C s))).map trimToken).filter
        (fun token => !token.isEmpty) =
      ((specPieces cur s).map trimToken).filter (fun token => !token.isEmpty) := by
  intro n
  induction n with
  | zero =>
    intro s cur hs
    have : s = [] := List.length_eq_zero.mp (by omega)
    subst this
    cases cur with
    | nil => simp [replaceSep, getlineLoop, specPieces, trimToken]
    | cons a cur => simp [replaceSep, getlineLoop, specPieces]
  | succ n ih =>
    intro s cur hs
    cases s with
    | nil =>
      cases cur with
      | nil => simp [replaceSep, getlineLoop, specPieces, trimToken]
      | cons a cur => simp [replaceSep, getlineLoop, specPieces]
    | cons a s =>
      have hlen : s.length ≤ n := by simpa using hs
      by_cases h1 : [0xEF, 0xBC, 0x8C] <+: a :: s
      · obtain ⟨rest, hrest⟩ := h1
        simp only [List.cons_append, List.nil_append] at hrest
        rw [← hrest, replaceBoth_cn, specPieces_cn, getlineLoop]
        simp only [if_true]
        apply keptTokens_cons
        apply ih
        have := congrArg List.length hrest
        simp only [List.length_cons] at this
        omega
      · by_cases h2 : [0xE3, 0x80, 0x81] <+: a :: s
        · obtain ⟨rest, hrest⟩ := h2
          simp only [List.cons_append, List.nil_append] at hrest
          rw [← hrest, replaceBoth_jp, specPieces_jp, getlineLoop]
          simp only [if_true]
          apply keptTokens_cons
          apply ih
          have := congrArg List.length hrest
          simp only [List.length_cons] at this
          omega
        · rw [replaceBoth_other a s h1 h2, getlineLoop]
          by_cases ha : a = 0x2C
          · subst ha
            rw [specPieces_comma]
            simp only [if_true]
            exact keptTokens_cons _ _ _ (ih s [] hlen)
          · rw [specPieces_other cur a s ha h1 h2]
            simp only [ha, if_false]
            exact ih s (cur ++ [a]) hlen

/-- C13 (as amended): for every input string other than the sentinel "无"
(for which nothing is returned), `splitKeywords` cuts it at every ",", "，" and
"、", trims surrounding spaces and tabs from each piece, discards the empty
pieces and keeps the order; so no returned token is empty, holds one of the
three separators, or begins or ends with a space or a tab. -/
theorem splitKeywords_specSplit (s : Str) (hs : s ≠ utf8 "无") :
    splitKeywords s = specSplit trimToken s ∧ ∀ t ∈ splitKeywords s, cleanToken t := by
  refine ⟨?_, splitKeywords_clean s⟩
  unfold splitKeywords specSplit
  by_cases h0 : s = []
  · subst h0
    simp [specPieces, trimToken]
  · simp only [h0, hs, or_self, if_false]
    exact getlineLoop_specPieces s.length s [] (Nat.le_refl _)

theorem splitKeywords_specSplit_witness :
    splitKeywords (utf8 "fishing, movies，a 、\tb,,c d ,") =
        [utf8 "fishing", utf8 "movies", utf8 "a", utf8 "b", utf8 "c d"] ∧
      cleanToken (utf8 "c d") :=
  have h := splitKeywords_specSplit (utf8 "fishing, movies，a 、\tb,,c d ,") (by decide)
  ⟨h.1.trans (by decide), h.2 (utf8 "c d") (by decide)⟩

/-- C13, counterexample: (1) for the input "无" nothing is returned although
cutting, trimming and discarding empty pieces keeps the piece "无"; (2) for the
input "a,\nb" the token "\nb" is returned, which begins with a white-space
character and is not what trimming white space gives. -/
theorem splitKeywords_not_whitespace_trimmed :
    (splitKeywords (utf8 "无") = [] ∧ specSplit trimWhitespace (utf8 "无") = [utf8 "无"]) ∧
      (splitKeywords (utf8 "a,\nb") = [utf8 "a", utf8 "\nb"] ∧
        isspace ((utf8 "\nb").headD 0) = true ∧
        specSplit trimWhitespace (utf8 "a,\nb") = [utf8 "a", utf8 "b"]) := by
  decide

/-! ## Loading and initialisation -/

/-- For a readable file `loadFromFile`, when it returns, returns 0. -/
theorem loadFromFile_readable_zero (st : LongTermMemory) (content : Str)
    (r : Int × LongTermMemory) (hf : st.file = some content)
    (h : loadFromFile st = Outcome.returns r) : r.1 = 0 := by
  unfold loadFromFile at h
  rw [hf] at h
  simp only at h
  by_cases hc : content = []
  · simp only [hc, if_true, Outcome.returns.injEq] at h
    rw [← h]
  · simp only [hc, if_false] at h
    cases hp : parseContent st.regex_depth content with
    | returns table =>
      rw [hp] at h
      simp only [Outcome.returns.injEq] at h
      rw [← h]
    | throws => rw [hp] at h; exact Outcome.noConfusion h
    | undefined => rw [hp] at h; exact Outcome.noConfusion h

/-- A match attempt consumes no more than the text before it. -/
theorem matchDepthAt_le (s : Str) : matchDepthAt s ≤ s.length := by
  have hlen : ∀ (p : Nat → Bool) (l : Str),
      l.length = (l.takeWhile p).length + (l.dropWhile p).length := by
    intro p l
    conv_lhs => rw [← List.takeWhile_append_dropWhile p l]
    rw [List.length_append]
  unfold matchDepthAt
  split
  · rename_i s1
    have h1 := hlen (fun c => decide (c ≠ 0x22)) s1
    simp only [List.length_cons]
    split
    · rename_i s2 heq2
      rw [heq2] at h1
      simp only [List.length_cons] at h1
      split
      · omega
      · have h2 := hlen isspace s2
        split
        · rename_i s3 heq3
          rw [heq3] at h2
          simp only [List.length_cons] at h2
          have h3 := hlen isspace s3
          split
          · rename_i s4 heq4
            rw [heq4] at h3
            simp only [List.length_cons] at h3
            have h4 := hlen (fun c => decide (c ≠ 0x22)) s4
            split
            · rename_i s5 heq5
              rw [heq5] at h4
              simp only [List.length_cons] at h4
              omega
            · omega
          · omega
        · omega
    · omega
  · omega

/-- With room for the whole text the loop over the matches returns. -/
theorem parsePairs_returns (d : Nat) :
    ∀ (s : Str) (n : Nat) (m : Map Str), s.length ≤ d →
      ∃ table, parsePairs d n s m = Outcome.returns table := by
  intro s
  induction s with
  | nil => intro n m _; exact ⟨m, by cases n <;> rfl⟩
  | cons c rest ih =>
    intro n m hd
    have hrest : rest.length ≤ d := by
      simp only [List.length_cons] at hd
      omega
    cases n with
    | succ n => rw [parsePairs]; exact ih n m hrest
    | zero =>
      rw [parsePairs, if_neg (Nat.not_lt.mpr (le_trans (matchDepthAt_le (c :: rest)) hd))]
      cases matchPairAt (c :: rest) with
      | none => exact ih 0 m hrest
      | some r => exact ih _ _ hrest

/-- With room for the whole text, the parse is defined exactly when something
other than a lone opening brace is left once the white space is removed. -/
theorem parseContent_defined_iff (d : Nat) (content : Str) (hd : content.length ≤ d) :
    (∃ table, parseContent d content = Outcome.returns table) ↔
      content.filter (fun c => !isspace c) ≠ [] ∧
        content.filter (fun c => !isspace c) ≠ [0x7B] := by
  have hfl : (content.filter (fun c => !isspace c)).length ≤ d :=
    le_trans (List.length_filter_le _ _) hd
  unfold parseContent
  cases hf : content.filter (fun c => !isspace c) with
  | nil => simp
  | cons c rest =>
    rw [hf] at hfl
    simp only [List.length_cons] at hfl
    by_cases hc : c = 0x7B
    · subst hc
      cases rest with
      | nil => simp
      | cons e rest2 =>
        simp only [if_true]
        cases hl : (e :: rest2).getLast? with
        | none => simp at hl
        | some g =>
          simp only [ne_eq, reduceCtorEq, not_false_eq_true, List.cons.injEq, true_and,
            and_true, iff_true]
          apply parsePairs_returns
          by_cases hg : g = 0x7D
          · simp only [hg, if_true, List.length_dropLast, List.length_cons]
            simp only [List.length_cons] at hfl
            omega
          · simp only [hg, if_false, List.length_cons]
            simp only [List.length_cons] at hfl
            omega
    · simp only [hc, if_false]
      cases hl : (c :: rest).getLast? with
      | none => simp at hl
      | some g =>
        simp only [ne_eq, reduceCtorEq, not_false_eq_true, List.cons.injEq, hc, false_and,
          and_true, iff_true]
        apply parsePairs_returns
        by_cases hg : g = 0x7D
        · simp only [hg, if_true, List.length_dropLast, List.length_cons]
          omega
        · simp only [hg, if_false, List.length_cons]
          omega

/-- C15, the code at the failing input: on a file that holds only a line
break, only blanks, or only an opening brace, the content is empty when
`content.front()` or `content.back()` is called, so `loadFromFile` has no
defined result.  On the empty file and on a text without any pair it returns
0 with the empty table. -/
theorem loadFromFile_blank_content_undefined :
    loadFromFile { freshStore with file := some (utf8 "\n") } = Outcome.undefined ∧
      loadFromFile { freshStore with file := some (utf8 " \t \n") } = Outcome.undefined ∧
      loadFromFile { freshStore with file := some (utf8 "\x7b\n") } = Outcome.undefined ∧
      loadFromFile { freshStore with store_ := [(utf8 "u", utf8 "a")], file := some [] } =
        Outcome.returns (0, { freshStore with store_ := [], file := some [] }) ∧
      loadFromFile
          { freshStore with store_ := [(utf8 "u", utf8 "a")], file := some (utf8 "not a map") } =
        Outcome.returns (0, { freshStore with store_ := [], file := some (utf8 "not a map") }) := by
  decide

/-- When `init` returns it returns 0, and if the load it ran reported a
failure the table is empty afterwards. -/
theorem init_returns_zero (st : LongTermMemory) (r : Int × LongTermMemory)
    (h : init st = Outcome.returns r) :
    r.1 = 0 ∧
      (st.initialized_ = false → ∀ l, loadFromFile st = Outcome.returns l → l.1 ≠ 0 →
        r.2.store_ = []) := by
  unfold init at h
  by_cases hi : st.initialized_ = true
  · rw [if_pos hi] at h
    simp only [Outcome.returns.injEq] at h
    rw [← h]
    exact ⟨rfl, fun hf => by rw [hi] at hf; exact Bool.noConfusion hf⟩
  · rw [if_neg hi] at h
    by_cases hd : st.dir_ok = false
    · rw [if_pos hd] at h
      exact Outcome.noConfusion h
    · rw [if_neg hd] at h
      cases hl : loadFromFile st with
      | returns l =>
        rw [hl] at h
        simp only [Outcome.returns.injEq] at h
        rw [← h]
        refine ⟨rfl, ?_⟩
        intro _ l2 hl2 hne
        simp only [Outcome.returns.injEq] at hl2
        subst hl2
        simp [hne]
      | throws => rw [hl] at h; exact Outcome.noConfusion h
      | undefined => rw [hl] at h; exact Outcome.noConfusion h

/-- With the data directory in place and no readable file, `init` returns 0
whether or not the file can be created; the table is empty afterwards. -/
theorem init_unreadable_file (st : LongTermMemory) (hi : st.initialized_ = false)
    (hd : st.dir_ok = true) (hf : st.file = none) :
    ∃ st2, init st = Outcome.returns (0, st2) ∧ st2.store_ = [] ∧ st2.initialized_ = true := by
  unfold init loadFromFile saveToFile
  simp only [hi, hd, hf, Bool.false_eq_true, if_false]
  by_cases hw : st.writable = true
  · simp [hw]
  · simp [hw]

/-- C16, the code at the failing input: when the data directory cannot be
created `fs::create_directories` throws and `init` does not return (the caller
in `main` has no handler); on a file holding only a line break `init` runs
into the undefined `front()` of `loadFromFile`.  With the directory in place
and the file neither readable nor creatable `init` returns 0 on an empty
table. -/
theorem init_throws_without_directory :
    init { freshStore with initialized_ := false, file := none, writable := false,
                           dir_ok := false } = Outcome.throws ∧
      init { freshStore with initialized_ := false, file := some (utf8 "\n") } =
        Outcome.undefined ∧
      (init { freshStore with initialized_ := false, store_ := [(utf8 "u", utf8 "a")],
                              file := none, writable := false }).result.map
          (fun r => (r.1, r.2.store_)) = some (0, []) := by
  decide

/-! ## Interleavings of two calls -/

theorem merge_queue_eq (base : LongTermMemory) (u k : Str) (hk : ¬ (k = [] ∨ k = utf8 "无")) :
    (mergeAndSaveLongTerm base u k).2.write_queue_ =
      base.write_queue_ ++ [(mergeAndSaveLongTerm base u k).2.store_] := by
  unfold mergeAndSaveLongTerm
  simp only [hk, if_false]

/-- C24: `mergeAndSaveLongTerm u k` changes only the entry of `u`: for every
other user `v` the table entry (its presence and its string) and the value of
`getLongTerm v` are the same before and after the call. -/
theorem mergeAndSaveLongTerm_frame (st : LongTermMemory) (u k v : Str) (hv : v ≠ u) :
    mapFind (mergeAndSaveLongTerm st u k).2.store_ v = mapFind st.store_ v ∧
      getLongTerm (mergeAndSaveLongTerm st u k).2 v = getLongTerm st v := by
  have h := mapFind_merge_ne st u k v hv
  refine ⟨h, ?_⟩
  unfold getLongTerm
  rw [h]

theorem mergeAndSaveLongTerm_frame_witness :
    mapFind
        (mergeAndSaveLongTerm (mergeAll freshStore [(utf8 "u0", utf8 "chess")]) (utf8 "u1")
          (utf8 "fishing, movies")).2.store_ (utf8 "u0") = some (utf8 "chess") ∧
      mapFind
        (mergeAndSaveLongTerm (mergeAll freshStore [(utf8 "u0", utf8 "chess")]) (utf8 "u1")
          (utf8 "fishing, movies")).2.store_ (utf8 "u2") = none :=
  ⟨(mergeAndSaveLongTerm_frame (mergeAll freshStore [(utf8 "u0", utf8 "chess")]) (utf8 "u1")
      (utf8 "fishing, movies") (utf8 "u0") (by decide)).1.trans (by decide),
   (mergeAndSaveLongTerm_frame (mergeAll freshStore [(utf8 "u0", utf8 "chess")]) (utf8 "u1")
      (utf8 "fishing, movies") (utf8 "u2") (by decide)).1.trans (by decide)⟩

/-- C25: `saveShortTerm round` changes only the sequence of `round.user_id`:
for every other user `v` the turn sequence (its presence and its turns) and the
value of `getShortTermContext v` are the same before and after the call. -/
theorem saveShortTerm_frame (store_ : Map (List ChatRound)) (round : ChatRound) (v : Str)
    (hv : v ≠ round.user_id) :
    mapFind (saveShortTerm store_ round) v = mapFind store_ v ∧
      getShortTermContext (saveShortTerm store_ round) v = getShortTermContext store_ v := by
  have h : mapFind (saveShortTerm store_ round) v = mapFind store_ v := by
    rw [mapFind_saveShortTerm]
    simp [hv]
  refine ⟨h, ?_⟩
  unfold getShortTermContext
  rw [h]

theorem saveShortTerm_frame_witness :
    getShortTermContext
        (saveShortTerm (saveAll [⟨[], utf8 "v", utf8 "hi", [], 0⟩])
          ⟨[], utf8 "u", utf8 "yo", [], 1⟩) (utf8 "v") =
      utf8 "第1轮用户输入：hi；" :=
  (saveShortTerm_frame (saveAll [⟨[], utf8 "v", utf8 "hi", [], 0⟩])
    ⟨[], utf8 "u", utf8 "yo", [], 1⟩ (utf8 "v") (by decide)).2.trans (by decide)

/-! ## The restricted round trip -/

theorem longValue_length : longValue.length = 40000 := by
  unfold longValue
  exact List.length_replicate _ _

theorem longValue_plain : plainTable [(utf8 "u", longValue)] := by
  intro p hp
  rw [List.mem_singleton] at hp
  subst hp
  refine ⟨by decide, by decide, ?_⟩
  intro c hc
  have hc2 : c = 0x61 := List.eq_of_mem_replicate hc
  rw [hc2]
  decide

theorem long_pair (d : Nat) (u v : Str) (h : d < u.length + v.length + 5) :
    ∃ p ∈ [(u, v)], d < p.1.length + p.2.length + 5 :=
  ⟨(u, v), List.mem_singleton.mpr rfl, h⟩

theorem replicate_headD (n : Nat) (a d : Nat) : (List.replicate (n + 1) a).headD d = a := rfl

theorem replicate_getLastD (n : Nat) (a d : Nat) :
    (List.replicate (n + 1) a).getLastD d = a := by
  induction n with
  | zero => rfl
  | succ n ih =>
    rw [List.replicate_succ]
    simp [List.getLastD]

theorem longValue_clean : cleanToken longValue := by
  have hmem : ∀ c ∈ longValue, c = 0x61 := fun c hc => List.eq_of_mem_replicate hc
  have hsucc : longValue = List.replicate (39999 + 1) 0x61 := rfl
  refine ⟨?_, ?_, ?_, ?_, ?_, ?_⟩
  · intro h
    have := longValue_length
    rw [h] at this
    simp at this
  · rw [hsucc, replicate_headD]; decide
  · rw [hsucc, replicate_getLastD]; decide
  · intro h
    exact absurd (hmem _ h) (by decide)
  · intro h
    have : 0xEF ∈ longValue := h.subset (by decide)
    exact absurd (hmem _ this) (by decide)
  · intro h
    have : 0xE3 ∈ longValue := h.subset (by decide)
    exact absurd (hmem _ this) (by decide)

theorem longValue_ne_sentinel : longValue ≠ utf8 "无" := by
  intro h
  have := longValue_length
  rw [h] at this
  exact absurd this (by decide)

/-- One call with the long value as its keywords leaves the long value as the
stored string. -/
theorem merge_longValue :
    (mergeAndSaveLongTerm freshStore (utf8 "u") longValue).2.store_ =
      [(utf8 "u", longValue)] := by
  have hk : ¬ (longValue = [] ∨ longValue = utf8 "无") := by
    rintro (h | h)
    · exact longValue_clean.1 h
    · exact longValue_ne_sentinel h
  rw [mergeAndSaveLongTerm_eq freshStore (utf8 "u") longValue hk]
  have h1 : storedKeys freshStore (utf8 "u") = [] := by decide
  have h2 := splitKeywords_single longValue longValue_clean longValue_ne_sentinel
  rw [h1, h2]
  have h3 : mergedVec [] [longValue] = [longValue] := by
    simp [mergedVec, insertKeys, mapAssign, max_long_keys]
  rw [h3]
  have h4 : joinLoop 0 [longValue] = longValue := by simp [joinLoop]
  rw [h4]
  have h5 : mapIndex freshStore.store_ (utf8 "u") ([] : Str) = [(utf8 "u", [])] := by decide
  rw [h5]
  simp only [mapAssign]
  have h6 : strLt (utf8 "u") (utf8 "u") = false := strLt_irrefl _
  simp [h6]

/-- The write thread then writes the table with the long value to the file. -/
theorem flush_longValue :
    (asyncWriteLoopStep (mergeAndSaveLongTerm freshStore (utf8 "u") longValue).2).file =
      some (fileText [(utf8 "u", longValue)]) := by
  have hk : ¬ (longValue = [] ∨ longValue = utf8 "无") := by
    rintro (h | h)
    · exact longValue_clean.1 h
    · exact longValue_ne_sentinel h
  have hq := merge_queue_eq freshStore (utf8 "u") longValue hk
  have hs := merge_longValue
  have hw : (mergeAndSaveLongTerm freshStore (utf8 "u") longValue).2.worker =
      WorkerPc.waiting := by
    rw [mergeAndSaveLongTerm_eq freshStore (utf8 "u") longValue hk]
    rfl
  have hwr : (mergeAndSaveLongTerm freshStore (utf8 "u") longValue).2.writable = true := by
    rw [mergeAndSaveLongTerm_eq freshStore (utf8 "u") longValue hk]
    rfl
  rw [hs] at hq
  have hq2 : (mergeAndSaveLongTerm freshStore (utf8 "u") longValue).2.write_queue_ =
      [[(utf8 "u", longValue)]] := by
    rw [hq]; rfl
  unfold asyncWriteLoopStep
  rw [hw]
  simp only [hq2]
  simp [saveToFile, hwr]

/-- C26, the code at a table the format can carry: when one pair of the table
(key, value and the five bytes around them) is longer than the number of bytes
a match attempt of `std::regex` can consume on the stack of the calling thread,
`loadFromFile` on the text `saveToFile` wrote for the table does not return:
the recursion of the match outgrows the stack. -/
theorem load_long_pair_no_return (st : LongTermMemory) (t : Map Str) (hwf : mapWF t)
    (hplain : plainTable t) (hlong : ∃ p ∈ t, st.regex_depth < p.1.length + p.2.length + 5) :
    (saveToFile { st with store_ := t, writable := true }).2.file = some (fileText t) ∧
      loadFromFile { st with file := some (fileText t) } = Outcome.undefined := by
  constructor
  · unfold saveToFile
    simp
  · rw [loadFromFile_fileText { st with file := some (fileText t) } t hwf hplain rfl, if_neg]
    intro hfit
    obtain ⟨p, hp, hlt⟩ := hlong
    have := hfit p hp
    simp only at this
    omega

theorem load_long_pair_no_return_witness :
    (mergeAndSaveLongTerm freshStore (utf8 "u") longValue).2.store_ =
        [(utf8 "u", longValue)] ∧
      (asyncWriteLoopStep (mergeAndSaveLongTerm freshStore (utf8 "u") longValue).2).file =
        some (fileText [(utf8 "u", longValue)]) ∧
      loadFromFile
          { freshStore with
            initialized_ := false, file := some (fileText [(utf8 "u", longValue)]) } =
        Outcome.undefined ∧
      init
          { freshStore with
            initialized_ := false, file := some (fileText [(utf8 "u", longValue)]) } =
        Outcome.undefined :=
  have hload : loadFromFile
      { freshStore with
        initialized_ := false, file := some (fileText [(utf8 "u", longValue)]) } =
      Outcome.undefined :=
    (load_long_pair_no_return { freshStore with initialized_ := false }
      [(utf8 "u", longValue)] (List.pairwise_singleton _ _) longValue_plain
      (long_pair _ _ _ (by rw [longValue_length]; decide))).2
  ⟨merge_longValue, flush_longValue, hload, by
    unfold init
    rw [if_neg (by decide), if_neg (by decide), hload]⟩

/-- C29: for every list `T` of tokens that are not empty, hold none of the
separators ",", "，", "、" and have no space or tab at either end, `T` being
different from the one-element list ["无"], `splitKeywords` applied to the
tokens of `T` joined by "，" returns exactly `T`. -/
theorem render_tokenize_roundtrip (T : List Str) (hT : ∀ t ∈ T, cleanToken t)
    (hne : T ≠ [utf8 "无"]) :
    splitKeywords (sepJoin (utf8 "，") T) = T ∧ joinLoop 0 T = sepJoin (utf8 "，") T := by
  refine ⟨?_, joinLoop_zero T⟩
  rw [← joinLoop_zero]
  exact splitKeywords_joinLoop T hT hne

theorem render_tokenize_roundtrip_witness :
    splitKeywords (utf8 "movies，fishing，无，c d") =
      [utf8 "movies", utf8 "fishing", utf8 "无", utf8 "c d"] :=
  (congrArg splitKeywords (show utf8 "movies，fishing，无，c d" =
      sepJoin (utf8 "，") [utf8 "movies", utf8 "fishing", utf8 "无", utf8 "c d"] by decide)).trans
    (render_tokenize_roundtrip [utf8 "movies", utf8 "fishing", utf8 "无", utf8 "c d"]
      (by decide) (by decide)).1

/-! ## The sentinel and the stored keywords -/

/-- The strings a sequence of calls leaves in the table: the empty string, the
sentinel, or the stored keywords (at least one) joined by "，". -/
theorem stored_string_shape (calls : List (Str × Str)) (u s : Str)
    (h : mapFind (mergeAll freshStore calls).store_ u = some s) :
    s = [] ∨ s = utf8 "无" ∨
      (splitKeywords s ≠ [] ∧ s = sepJoin (utf8 "，") (splitKeywords s)) := by
  induction calls using List.reverseRecOn generalizing s with
  | nil => exact absurd h (by simp [mergeAll, freshStore, mapFind])
  | append_singleton cs c ih =>
    rw [mergeAll_snoc] at h
    by_cases hk : c.2 = [] ∨ c.2 = utf8 "无"
    · rw [merge_noop_state _ _ _ hk] at h
      exact ih s h
    · by_cases hu : u = c.1
      · subst hu
        rw [mapFind_merge_self _ _ _ hk] at h
        have hs := (Option.some.inj h).symm
        have hclean := mergedVec_clean ((mapFind (mergeAll freshStore cs).store_ c.1).getD []) c.2
        change ∀ t ∈ mergedVec (storedKeys (mergeAll freshStore cs) c.1) (splitKeywords c.2),
          cleanToken t at hclean
        generalize mergedVec (storedKeys (mergeAll freshStore cs) c.1) (splitKeywords c.2) = T
          at hs hclean
        by_cases hT0 : T = []
        · left; rw [hs, hT0]; rfl
        · by_cases hT1 : T = [utf8 "无"]
          · right; left; rw [hs, hT1]; decide
          · right; right
            have hsplit := splitKeywords_joinLoop T hclean hT1
            rw [hs, hsplit]
            exact ⟨hT0, joinLoop_zero T⟩
      · rw [mapFind_merge_ne _ _ _ _ hu] at h
        exact ih s h

/-- C28 (as amended): in every state a sequence of `mergeAndSaveLongTerm` calls
reaches from the empty store, and for every user `u`, `getLongTerm u` returns
the sentinel "无" exactly when no keyword is stored for `u` (the stored string
has no token, as for the string "无" itself); when keywords are stored it
returns them joined by "，". -/
theorem getLongTerm_sentinel_iff_no_keyword (calls : List (Str × Str)) (u : Str) :
    (getLongTerm (mergeAll freshStore calls) u = utf8 "无" ↔
        storedKeys (mergeAll freshStore calls) u = []) ∧
      (storedKeys (mergeAll freshStore calls) u ≠ [] →
        getLongTerm (mergeAll freshStore calls) u =
          sepJoin (utf8 "，") (storedKeys (mergeAll freshStore calls) u)) := by
  have hshape := stored_string_shape calls u
  unfold getLongTerm storedKeys
  cases hf : mapFind (mergeAll freshStore calls).store_ u with
  | none => simp [splitKeywords]
  | some s =>
    simp only [Option.getD_some]
    rcases hshape s hf with h | h | ⟨h1, h2⟩
    · subst h
      simp [splitKeywords]
    · subst h
      have e : splitKeywords (utf8 "无") = [] := by decide
      have e2 : utf8 "无" ≠ [] := by decide
      simp [e, e2]
    · have hne : s ≠ [] := by
        intro h0
        rw [h0] at h1
        exact h1 (by simp [splitKeywords])
      have hns : s ≠ utf8 "无" := by
        intro h0
        rw [h0] at h1
        exact h1 (by decide)
      simp only [hne, if_false, hns, h1, false_iff, not_false_eq_true, true_and]
      intro _
      exact h2

theorem getLongTerm_sentinel_iff_no_keyword_witness :
    getLongTerm (mergeAll freshStore [(utf8 "u", utf8 "无,"), (utf8 "v", utf8 "无,a")])
        (utf8 "v") = utf8 "a，无" :=
  ((getLongTerm_sentinel_iff_no_keyword
      [(utf8 "u", utf8 "无,"), (utf8 "v", utf8 "无,a")] (utf8 "v")).2 (by decide)).trans
    (by decide)

/-- C28, counterexample: the call with the keywords "无,a" stores the sentinel
string as a keyword of "u", next to "a"; the call with the keywords "无,"
stores the string "无" itself for "u", an entry that reads as holding no
keyword (a later call with "a" leaves only "a"). -/
theorem sentinel_stored_as_keyword :
    storedKeys (mergeAll freshStore [(utf8 "u", utf8 "无,a")]) (utf8 "u") =
        [utf8 "a", utf8 "无"] ∧
      utf8 "无" ∈ storedKeys (mergeAll freshStore [(utf8 "u", utf8 "无,a")]) (utf8 "u") ∧
      splitKeywords (utf8 "无,") = [utf8 "无"] ∧
      mapFind (mergeAll freshStore [(utf8 "u", utf8 "无,")]).store_ (utf8 "u") =
        some (utf8 "无") ∧
      storedKeys (mergeAll freshStore [(utf8 "u", utf8 "无,")]) (utf8 "u") = [] ∧
      mapFind (mergeAll freshStore [(utf8 "u", utf8 "无,"), (utf8 "u", utf8 "a")]).store_
        (utf8 "u") = some (utf8 "a") := by
  decide

/-- C22, the code at the failing input: on the empty store the call with the
keywords "," returns the empty string and stores it for "u"; `getLongTerm "u"`
right afterwards returns the sentinel "无". -/
theorem merge_returns_empty_string :
    (mergeAndSaveLongTerm freshStore (utf8 "u") (utf8 ",")).1 = [] ∧
      (mergeAndSaveLongTerm freshStore (utf8 "u") (utf8 ",")).2.store_ = [(utf8 "u", [])] ∧
      getLongTerm (mergeAndSaveLongTerm freshStore (utf8 "u") (utf8 ",")).2 (utf8 "u") =
        utf8 "无" ∧
      (mergeAndSaveLongTerm freshStore (utf8 "u") (utf8 " ,、")).1 = [] := by
  decide

/-! ## The cap -/

theorem mergedVec_eq_take (E N : List Str) :
    mergedVec E N = ((insertKeys (insertKeys [] E) N).map Prod.fst).take 50 := by
  unfold mergedVec
  simp only [max_long_keys]
  split
  · rfl
  · rw [List.take_of_length_le (by omega)]

/-- In a strictly increasing list the first `n` elements are smaller than all
the others. -/
theorem take_lt_rest (l : List Str) (n : Nat)
    (hs : List.Pairwise (fun a b => strLt a b = true) l) (x y : Str) (hx : x ∈ l.take n)
    (hy : y ∈ l) (hyn : y ∉ l.take n) : strLt x y = true := by
  rw [← List.take_append_drop n l] at hs hy
  rw [List.pairwise_append] at hs
  rcases List.mem_append.mp hy with h | h
  · exact absurd h hyn
  · exact hs.2.2 x hx y h

/-- C21 (as amended): for a keywords string `k` that is neither empty nor the
sentinel, when the union of the tokens stored for `u` and the tokens of `k`
has more than 50 elements, the tokens stored after `mergeAndSaveLongTerm u k`
are exactly the 50 smallest elements of that union in byte-wise lexicographic
order: 50 tokens of the union, in increasing order, each smaller than every
token of the union that is left out. -/
theorem mergeAndSaveLongTerm_keeps_smallest (st : LongTermMemory) (u k : Str)
    (hk1 : k ≠ []) (hk2 : k ≠ utf8 "无")
    (hbig : 50 < (storedKeys st u ++ splitKeywords k).toFinset.card) :
    (storedKeys (mergeAndSaveLongTerm st u k).2 u).length = 50 ∧
      List.Pairwise (fun a b => strLt a b = true)
        (storedKeys (mergeAndSaveLongTerm st u k).2 u) ∧
      (∀ x ∈ storedKeys (mergeAndSaveLongTerm st u k).2 u,
        x ∈ storedKeys st u ∨ x ∈ splitKeywords k) ∧
      (∀ y, y ∈ storedKeys st u ∨ y ∈ splitKeywords k →
        y ∉ storedKeys (mergeAndSaveLongTerm st u k).2 u →
        ∀ x ∈ storedKeys (mergeAndSaveLongTerm st u k).2 u, strLt x y = true) := by
  have hk : ¬ (k = [] ∨ k = utf8 "无") := fun h => h.elim hk1 hk2
  have hlen : (mergedVec (storedKeys st u) (splitKeywords k)).length = 50 := by
    rw [mergedVec_length]; omega
  have hM : mergedVec (storedKeys st u) (splitKeywords k) ≠ [utf8 "无"] := by
    intro h
    rw [h] at hlen
    simp at hlen
  rw [storedKeys_merge_self st u k hk hM]
  refine ⟨hlen, mergedVec_sorted _ _, mergedVec_subset _ _, ?_⟩
  intro y hy hyn x hx
  obtain ⟨hs, hm⟩ := mergedKeys_spec (storedKeys st u) (splitKeywords k)
  rw [mergedVec_eq_take] at hyn hx
  exact take_lt_rest _ 50 hs x y hx ((hm y).mpr hy) hyn

set_option maxRecDepth 100000 in
theorem mergeAndSaveLongTerm_keeps_smallest_witness :
    (storedKeys (mergeAndSaveLongTerm (mergeAll freshStore [(utf8 "u", utf8 "z")]) (utf8 "u")
        keywords51).2 (utf8 "u")).length = 50 ∧
      ∀ x ∈ storedKeys (mergeAndSaveLongTerm (mergeAll freshStore [(utf8 "u", utf8 "z")])
        (utf8 "u") keywords51).2 (utf8 "u"), strLt x (utf8 "z") = true :=
  have h := mergeAndSaveLongTerm_keeps_smallest (mergeAll freshStore [(utf8 "u", utf8 "z")])
    (utf8 "u") keywords51 (by decide) (by decide) (by decide)
  ⟨h.1, h.2.2.2 (utf8 "z") (Or.inl (by decide)) (by decide)⟩

set_option maxRecDepth 100000 in
/-- C21, counterexample: with the 51 keywords of `keywords51` stored for "u"
the union with the tokens of the empty keywords string has 51 elements, but the
call `mergeAndSaveLongTerm "u" ""` leaves all 51 stored. -/
theorem noop_call_keeps_more_than_cap :
    50 < (storedKeys { freshStore with store_ := [(utf8 "u", keywords51)] } (utf8 "u") ++
        splitKeywords []).toFinset.card ∧
      (storedKeys
        (mergeAndSaveLongTerm { freshStore with store_ := [(utf8 "u", keywords51)] } (utf8 "u")
          []).2 (utf8 "u")).length = 51 := by
  decide

/-! ## Order independence -/

/-- Two strictly increasing lists with the same elements are equal. -/
theorem sorted_unique (l1 l2 : List Str)
    (h1 : List.Pairwise (fun a b => strLt a b = true) l1)
    (h2 : List.Pairwise (fun a b => strLt a b = true) l2)
    (hm : ∀ x, x ∈ l1 ↔ x ∈ l2) : l1 = l2 := by
  haveI : IsAntisymm Str (fun a b => strLt a b = true) :=
    ⟨fun a b hab hba => by
      have := strLt_asymm a b hab
      rw [hba] at this
      exact Bool.noConfusion this⟩
  have hp : l1.Perm l2 :=
    (List.perm_ext_iff_of_nodup (List.Pairwise.imp (fun hab => strLt_ne hab) h1)
      (List.Pairwise.imp (fun hab => strLt_ne hab) h2)).mpr hm
  exact List.eq_of_perm_of_sorted hp h1 h2

/-- The merged vector depends only on the set of the keys merged. -/
theorem mergedVec_congr (E N E2 N2 : List Str)
    (h : ∀ x, (x ∈ E ∨ x ∈ N) ↔ (x ∈ E2 ∨ x ∈ N2)) : mergedVec E N = mergedVec E2 N2 := by
  rw [mergedVec_eq_take, mergedVec_eq_take]
  congr 1
  obtain ⟨hs1, hm1⟩ := mergedKeys_spec E N
  obtain ⟨hs2, hm2⟩ := mergedKeys_spec E2 N2
  apply sorted_unique _ _ hs1 hs2
  intro x
  rw [hm1, hm2]
  exact h x

theorem mapAssign_take (m : Map Bool) :
    ∀ (n : Nat) (x : Str),
      (mapAssign (m.take n) x true).take n = (mapAssign m x true).take n := by
  induction m with
  | nil => intro n x; simp
  | cons p rest ih =>
    intro n x
    obtain ⟨k, v⟩ := p
    cases n with
    | zero => simp
    | succ n =>
      simp only [List.take_succ_cons, mapAssign]
      by_cases h1 : strLt x k = true
      · rw [if_pos h1, if_pos h1]
        cases n with
        | zero => simp
        | succ j => simp [List.take_take]
      · rw [if_neg h1, if_neg h1]
        by_cases h2 : strLt k x = true
        · rw [if_pos h2, if_pos h2]
          simp only [List.take_succ_cons, ih n x]
        · rw [if_neg h2, if_neg h2]
          simp [List.take_take]

theorem insertKeys_take (B : List Str) (n : Nat) :
    ∀ (m1 m2 : Map Bool), m1.take n = m2.take n →
      (insertKeys m1 B).take n = (insertKeys m2 B).take n := by
  induction B with
  | nil => intro m1 m2 h; exact h
  | cons b B ih =>
    intro m1 m2 h
    simp only [insertKeys, List.foldl_cons]
    apply ih
    rw [← mapAssign_take m1 n b, ← mapAssign_take m2 n b, h]

theorem insertKeys_append (m : Map Bool) (A B : List Str) :
    insertKeys (insertKeys m A) B = insertKeys m (A ++ B) := by
  simp [insertKeys, List.foldl_append]

theorem mapAssign_values_true (m : Map Bool) (k : Str) (h : ∀ p ∈ m, p.2 = true) :
    ∀ p ∈ mapAssign m k true, p.2 = true := by
  induction m with
  | nil => intro p hp; simp [mapAssign] at hp; rw [hp]
  | cons q rest ih =>
    obtain ⟨k2, v2⟩ := q
    intro p hp
    simp only [mapAssign] at hp
    by_cases h1 : strLt k k2 = true
    · rw [if_pos h1] at hp
      rcases List.mem_cons.mp hp with hp | hp
      · rw [hp]
      · exact h p hp
    · rw [if_neg h1] at hp
      by_cases h2 : strLt k2 k = true
      · rw [if_pos h2] at hp
        rcases List.mem_cons.mp hp with hp | hp
        · rw [hp]; exact h (k2, v2) (by simp)
        · exact ih (fun q hq => h q (List.mem_cons_of_mem _ hq)) p hp
      · rw [if_neg h2] at hp
        rcases List.mem_cons.mp hp with hp | hp
        · rw [hp]
        · exact h p (List.mem_cons_of_mem _ hp)

theorem insertKeys_values_true (A : List Str) :
    ∀ (m : Map Bool), (∀ p ∈ m, p.2 = true) → ∀ p ∈ insertKeys m A, p.2 = true := by
  induction A with
  | nil => intro m h; exact h
  | cons a A ih =>
    intro m h
    simp only [insertKeys, List.foldl_cons]
    exact ih _ (mapAssign_values_true m a h)

/-- Inserting the keys of a well-formed map of `true` values rebuilds it. -/
theorem insertKeys_keys (m : Map Bool) :
    ∀ (pre : Map Bool), mapWF (pre ++ m) → (∀ p ∈ m, p.2 = true) →
      insertKeys pre (m.map Prod.fst) = pre ++ m := by
  induction m with
  | nil => intro pre _ _; simp [insertKeys]
  | cons p rest ih =>
    intro pre hwf hv
    obtain ⟨k, v⟩ := p
    have hvk : v = true := hv (k, v) (by simp)
    subst hvk
    have hlast : mapAssign pre k true = pre ++ [(k, true)] := by
      apply mapAssign_last
      intro x hx
      unfold mapWF at hwf
      rw [List.map_append, List.pairwise_append] at hwf
      exact hwf.2.2 x hx k (by simp)
    simp only [List.map_cons, insertKeys, List.foldl_cons, hlast]
    have := ih (pre ++ [(k, true)]) (by simpa using hwf)
      (fun q hq => hv q (List.mem_cons_of_mem _ hq))
    simp only [insertKeys] at this
    rw [this]
    simp

/-- Merging into an already capped vector gives what merging into the
uncapped union gives. -/
theorem mergedVec_mergedVec (E N1 N2 : List Str) :
    mergedVec (mergedVec E N1) N2 = mergedVec (E ++ N1) N2 := by
  have hS : mapWF (insertKeys [] (E ++ N1)) := mapWF_insertKeys _ [] (by simp [mapWF])
  have hV : ∀ p ∈ insertKeys [] (E ++ N1), p.2 = true :=
    insertKeys_values_true _ [] (by simp)
  have hwf50 : mapWF ((insertKeys [] (E ++ N1)).take 50) := by
    unfold mapWF at hS ⊢
    rw [List.map_take]
    exact hS.sublist (List.take_sublist _ _)
  have h1 : mergedVec E N1 = ((insertKeys [] (E ++ N1)).take 50).map Prod.fst := by
    rw [mergedVec_eq_take, insertKeys_append, List.map_take]
  have h2 : insertKeys [] (((insertKeys [] (E ++ N1)).take 50).map Prod.fst) =
      (insertKeys [] (E ++ N1)).take 50 := by
    have := insertKeys_keys ((insertKeys [] (E ++ N1)).take 50) [] (by simpa using hwf50)
      (fun p hp => hV p (List.mem_of_mem_take hp))
    simpa using this
  rw [mergedVec_eq_take (mergedVec E N1) N2, mergedVec_eq_take (E ++ N1) N2, h1, h2,
    ← List.map_take, ← List.map_take]
  congr 1
  exact insertKeys_take N2 50 _ _ (by rw [List.take_take]; simp)

theorem getLongTerm_congr (s1 s2 : LongTermMemory) (u : Str)
    (h : mapFind s1.store_ u = mapFind s2.store_ u) : getLongTerm s1 u = getLongTerm s2 u := by
  unfold getLongTerm
  rw [h]

theorem mergedVec_ne_sentinel_of_not_mem (E N : List Str) (hE : utf8 "无" ∉ E)
    (hN : utf8 "无" ∉ N) : mergedVec E N ≠ [utf8 "无"] := by
  intro h
  have hm : utf8 "无" ∈ mergedVec E N := by rw [h]; simp
  rcases mergedVec_subset E N _ hm with h1 | h1
  · exact hE h1
  · exact hN h1

/-- The entry of `u` after two calls that are not no-ops. -/
theorem mapFind_two_merges (st : LongTermMemory) (u ka kb : Str)
    (hka : ¬ (ka = [] ∨ ka = utf8 "无")) (hkb : ¬ (kb = [] ∨ kb = utf8 "无"))
    (hE : utf8 "无" ∉ storedKeys st u) (ha : utf8 "无" ∉ splitKeywords ka) :
    mapFind (mergeAndSaveLongTerm (mergeAndSaveLongTerm st u ka).2 u kb).2.store_ u =
      some (joinLoop 0
        (mergedVec (storedKeys st u ++ splitKeywords ka) (splitKeywords kb))) := by
  rw [mapFind_merge_self _ u kb hkb,
    storedKeys_merge_self st u ka hka (mergedVec_ne_sentinel_of_not_mem _ _ hE ha),
    mergedVec_mergedVec]

/-- C23: if no token of `k1`, of `k2` or of the string stored for `u` is the
sentinel "无", then `getLongTerm u` after `mergeAndSaveLongTerm u k1` followed
by `mergeAndSaveLongTerm u k2` equals its value after the two calls in the
opposite order (also when the cap cuts the union), and merging `k1` twice
gives the same value as merging it once. -/
theorem merge_order_independent (st : LongTermMemory) (u k1 k2 : Str)
    (hE : utf8 "无" ∉ storedKeys st u) (h1 : utf8 "无" ∉ splitKeywords k1)
    (h2 : utf8 "无" ∉ splitKeywords k2) :
    getLongTerm (mergeAndSaveLongTerm (mergeAndSaveLongTerm st u k1).2 u k2).2 u =
        getLongTerm (mergeAndSaveLongTerm (mergeAndSaveLongTerm st u k2).2 u k1).2 u ∧
      getLongTerm (mergeAndSaveLongTerm (mergeAndSaveLongTerm st u k1).2 u k1).2 u =
        getLongTerm (mergeAndSaveLongTerm st u k1).2 u := by
  by_cases hk1 : k1 = [] ∨ k1 = utf8 "无"
  · rw [merge_noop_state st u k1 hk1, merge_noop_state _ u k1 hk1, merge_noop_state st u k1 hk1]
    exact ⟨rfl, rfl⟩
  · constructor
    · by_cases hk2 : k2 = [] ∨ k2 = utf8 "无"
      · rw [merge_noop_state st u k2 hk2, merge_noop_state _ u k2 hk2]
      · apply getLongTerm_congr
        rw [mapFind_two_merges st u k1 k2 hk1 hk2 hE h1,
          mapFind_two_merges st u k2 k1 hk2 hk1 hE h2]
        congr 2
        apply mergedVec_congr
        intro x
        simp only [List.mem_append]
        tauto
    · apply getLongTerm_congr
      rw [mapFind_two_merges st u k1 k1 hk1 hk1 hE h1, mapFind_merge_self st u k1 hk1]
      congr 2
      apply mergedVec_congr
      intro x
      simp only [List.mem_append]
      tauto

set_option maxRecDepth 100000 in
theorem merge_order_independent_witness :
    getLongTerm
        (mergeAndSaveLongTerm (mergeAndSaveLongTerm freshStore (utf8 "u") keywords51).2
          (utf8 "u") (utf8 "0, z")).2 (utf8 "u") =
      getLongTerm
        (mergeAndSaveLongTerm (mergeAndSaveLongTerm freshStore (utf8 "u") (utf8 "0, z")).2
          (utf8 "u") keywords51).2 (utf8 "u") :=
  (merge_order_independent freshStore (utf8 "u") keywords51 (utf8 "0, z") (by decide)
    (by decide) (by decide)).1

/-! ## The canonical form of a stored value -/

theorem splitKeywords_eq_specSplit (s : Str) (hs : s ≠ utf8 "无") :
    splitKeywords s = specSplit trimToken s := by
  unfold splitKeywords specSplit
  by_cases h0 : s = []
  · subst h0
    simp [specPieces, trimToken]
  · simp only [h0, hs, or_self, if_false]
    exact getlineLoop_specPieces s.length s [] (Nat.le_refl _)

/-- Cutting a rendered list of well-formed tokens at the separators gives the
list back, the one-element list of the sentinel included. -/
theorem specSplit_joinLoop (T : List Str) (hT : ∀ t ∈ T, cleanToken t) :
    specSplit trimToken (joinLoop 0 T) = T := by
  by_cases hs : T = [utf8 "无"]
  · rw [hs]; decide
  · have hrt := splitKeywords_joinLoop T hT hs
    have hne : joinLoop 0 T ≠ utf8 "无" := by
      intro h
      rw [h] at hrt
      have h0 : T = [] := by rw [← hrt]; decide
      rw [h0] at h
      exact absurd h (by decide)
    rw [← splitKeywords_eq_specSplit _ hne]
    exact hrt

/-- A rendered list of tokens does not begin with the separator. -/
theorem sepJoin_no_leading_sep (T : List Str)
    (hT : ∀ t ∈ T, t ≠ [] ∧ ¬ [0xEF, 0xBC, 0x8C] <:+: t) :
    ¬ [0xEF, 0xBC, 0x8C] <+: sepJoin [0xEF, 0xBC, 0x8C] T := by
  cases T with
  | nil => simp [sepJoin]
  | cons k ks =>
    obtain ⟨hk, hki⟩ := hT k (by simp)
    rw [sepJoin_cons]
    intro hpre
    match k, hk, hki with
    | [a], _, _ =>
      cases ks with
      | nil => simp at hpre
      | cons k2 ks => simp at hpre
    | [a, b], _, _ =>
      cases ks with
      | nil => simp at hpre
      | cons k2 ks => simp at hpre
    | a :: b :: c :: k3, _, hki =>
      apply hki
      simp only [List.cons_append, List.cons_prefix_cons, List.nil_prefix, and_true] at hpre
      obtain ⟨h0, h1, h2⟩ := hpre
      rw [← h0, ← h1, ← h2]
      exact ⟨[], k3, by simp⟩

/-- A rendered list of tokens does not end with the separator. -/
theorem sepJoin_no_trailing_sep (T : List Str)
    (hT : ∀ t ∈ T, t ≠ [] ∧ ¬ [0xEF, 0xBC, 0x8C] <:+: t) :
    ¬ [0xEF, 0xBC, 0x8C] <:+ sepJoin [0xEF, 0xBC, 0x8C] T := by
  induction T with
  | nil => simp [sepJoin]
  | cons k ks ih =>
    obtain ⟨hk, hki⟩ := hT k (by simp)
    cases ks with
    | nil =>
      simp only [sepJoin]
      exact fun h => hki h.isInfix
    | cons k2 ks =>
      have ih2 := ih (fun t ht => hT t (List.mem_cons_of_mem _ ht))
      have hne : sepJoin [0xEF, 0xBC, 0x8C] (k2 :: ks) ≠ [] :=
        sepJoin_ne_nil _ _ _ (hT k2 (by simp)).1
      simp only [sepJoin, List.append_assoc]
      intro hsuf
      by_cases hl : 3 ≤ (sepJoin [0xEF, 0xBC, 0x8C] (k2 :: ks)).length
      · apply ih2
        exact List.suffix_of_suffix_length_le hsuf
          ((List.suffix_append _ _).trans (List.suffix_append _ _)) (by simpa using hl)
      · match hS : sepJoin [0xEF, 0xBC, 0x8C] (k2 :: ks), hne, hl with
        | [a], _, _ =>
          rw [hS, ← List.reverse_prefix] at hsuf
          simp at hsuf
        | [a, b], _, _ =>
          rw [hS, ← List.reverse_prefix] at hsuf
          simp at hsuf
        | a :: b :: c :: r, _, hl => simp at hl

/-- C27: after `mergeAndSaveLongTerm u k` with `k` neither empty nor the
sentinel, the string stored for `u` is its tokens (the pieces between the
separators) joined by "，", these tokens are in strictly increasing byte-wise
lexicographic order, the string neither begins nor ends with the separator,
and a keywords string `k2` with the same tokens in any order leaves the same
string. -/
theorem stored_value_canonical (st : LongTermMemory) (u k k2 : Str)
    (hk1 : k ≠ []) (hk2 : k ≠ utf8 "无") (hk3 : k2 ≠ []) (hk4 : k2 ≠ utf8 "无")
    (hsame : (splitKeywords k).toFinset = (splitKeywords k2).toFinset) :
    ∃ s, mapFind (mergeAndSaveLongTerm st u k).2.store_ u = some s ∧
      s = sepJoin (utf8 "，") (specSplit trimToken s) ∧
      List.Pairwise (fun a b => strLt a b = true) (specSplit trimToken s) ∧
      ¬ utf8 "，" <+: s ∧ ¬ utf8 "，" <:+ s ∧
      mapFind (mergeAndSaveLongTerm st u k2).2.store_ u = some s := by
  have hk : ¬ (k = [] ∨ k = utf8 "无") := fun h => h.elim hk1 hk2
  have hkb : ¬ (k2 = [] ∨ k2 = utf8 "无") := fun h => h.elim hk3 hk4
  have hclean := mergedVec_clean ((mapFind st.store_ u).getD []) k
  have hsp := specSplit_joinLoop _ hclean
  have hfree : ∀ t ∈ mergedVec (storedKeys st u) (splitKeywords k),
      t ≠ [] ∧ ¬ [0xEF, 0xBC, 0x8C] <:+: t := by
    intro t ht
    have hc := hclean t ht
    exact ⟨hc.1, by have := hc.2.2.2.2.1; rwa [utf8_comma_cn] at this⟩
  refine ⟨joinLoop 0 (mergedVec (storedKeys st u) (splitKeywords k)),
    mapFind_merge_self st u k hk, ?_, ?_, ?_, ?_, ?_⟩
  · unfold storedKeys
    rw [hsp]
    exact joinLoop_zero _
  · unfold storedKeys
    rw [hsp]
    exact mergedVec_sorted _ _
  · rw [joinLoop_zero, utf8_comma_cn]
    exact sepJoin_no_leading_sep _ hfree
  · rw [joinLoop_zero, utf8_comma_cn]
    exact sepJoin_no_trailing_sep _ hfree
  · rw [mapFind_merge_self st u k2 hkb]
    congr 2
    apply mergedVec_congr
    intro x
    have hx : x ∈ (splitKeywords k).toFinset ↔ x ∈ (splitKeywords k2).toFinset := by
      rw [hsame]
    simp only [List.mem_toFinset] at hx
    rw [hx]

theorem stored_value_canonical_witness :
    mapFind (mergeAndSaveLongTerm (mergeAll freshStore [(utf8 "u", utf8 "movies")]) (utf8 "u")
        (utf8 "fishing, chess")).2.store_ (utf8 "u") = some (utf8 "chess，fishing，movies") ∧
      mapFind (mergeAndSaveLongTerm (mergeAll freshStore [(utf8 "u", utf8 "movies")]) (utf8 "u")
        (utf8 "chess、fishing")).2.store_ (utf8 "u") = some (utf8 "chess，fishing，movies") :=
  match stored_value_canonical (mergeAll freshStore [(utf8 "u", utf8 "movies")]) (utf8 "u")
      (utf8 "fishing, chess") (utf8 "chess、fishing") (by decide) (by decide) (by decide)
      (by decide) (by decide) with
  | ⟨_, h1, _, _, _, _, h6⟩ =>
    have hs := h1.symm.trans
      (show mapFind (mergeAndSaveLongTerm (mergeAll freshStore [(utf8 "u", utf8 "movies")])
        (utf8 "u") (utf8 "fishing, chess")).2.store_ (utf8 "u") =
        some (utf8 "chess，fishing，movies") by decide)
    ⟨h1.trans hs, h6.trans hs⟩
end memory
